import Mathlib

/-!
Verification development for the core of a JWT (JSON Web Token) library
(`jwt.c`).  C strings and byte buffers are embedded as `List Nat` (one
entry per byte); machine integers that can go negative are `Int`.
The external collaborators (the JSON library, the base64 codec, the
crypto backends) are modelled from the specification's contracts:
the JSON object model with insertion-ordered keys and sorted-key compact
serialization, the RFC 4648 base64 codec, and sign/verify as oracle
parameters.
-/

set_option maxHeartbeats 1000000

/-- Bytes of an ASCII string literal. -/
def ascii (s : String) : List Nat := s.data.map Char.toNat

/-- `tolower` on a byte, as used by `strcasecmp`. -/
def lowerB (b : Nat) : Nat := if 65 ≤ b ∧ b ≤ 90 then b + 32 else b

/-- Case-insensitive byte-string equality: `strcasecmp(a, b) == 0`. -/
def ieq (a b : List Nat) : Bool := a.map lowerB == b.map lowerB

/-- C `errno`-style error kinds used by the library. -/
inductive Err where
  | ok
  | einval
  | enomem
  | eexist
  | enoent
deriving DecidableEq, Repr

/-- The algorithm tag `jwt_alg_t`; `INVAL` is the sentinel parse result. -/
inductive JwtAlg where
  | NONE
  | HS256
  | HS384
  | HS512
  | RS256
  | RS384
  | RS512
  | ES256
  | ES384
  | ES512
  | INVAL
deriving DecidableEq, Repr

/-- `jwt_alg_str`: the canonical algorithm name (`NULL` for `INVAL`). -/
def jwt_alg_str : JwtAlg → Option (List Nat)
  | .NONE => some (ascii "none")
  | .HS256 => some (ascii "HS256")
  | .HS384 => some (ascii "HS384")
  | .HS512 => some (ascii "HS512")
  | .RS256 => some (ascii "RS256")
  | .RS384 => some (ascii "RS384")
  | .RS512 => some (ascii "RS512")
  | .ES256 => some (ascii "ES256")
  | .ES384 => some (ascii "ES384")
  | .ES512 => some (ascii "ES512")
  | .INVAL => none

/-- `jwt_str_alg`: parse an algorithm name case-insensitively
(`NULL` input and unknown names give `INVAL`). -/
def jwt_str_alg : Option (List Nat) → JwtAlg
  | none => .INVAL
  | some a =>
    if ieq a (ascii "none") then .NONE
    else if ieq a (ascii "HS256") then .HS256
    else if ieq a (ascii "HS384") then .HS384
    else if ieq a (ascii "HS512") then .HS512
    else if ieq a (ascii "RS256") then .RS256
    else if ieq a (ascii "RS384") then .RS384
    else if ieq a (ascii "RS512") then .RS512
    else if ieq a (ascii "ES256") then .ES256
    else if ieq a (ascii "ES384") then .ES384
    else if ieq a (ascii "ES512") then .ES512
    else .INVAL

/-- JSON values, as provided by the external JSON library.  Modelled from
the spec: object values are "strings, integers, booleans, or arbitrary
JSON subtrees"; objects are key/value sequences in insertion order with
unique keys. -/
inductive JVal where
  | jnull
  | jbool (b : Bool)
  | jint (n : Int)
  | jstr (s : List Nat)
  | jarr (xs : List JVal)
  | jobj (xs : List (List Nat × JVal))

namespace JVal

/-- Assoc-list lookup on object entries (first match). -/
def lookupK : List (List Nat × JVal) → List Nat → Option JVal
  | [], _ => none
  | (k', v) :: r, k => if k' = k then some v else lookupK r k

/-- Replace-in-place-or-append on object entries. -/
def jsetL : List (List Nat × JVal) → List Nat → JVal → List (List Nat × JVal)
  | [], k, v => [(k, v)]
  | (k', v') :: r, k, v => if k' = k then (k, v) :: r else (k', v') :: jsetL r k v

/-- Delete the entry with the given key (keys are unique in any object
the library builds, so removing every match is the same operation). -/
def jdelL : List (List Nat × JVal) → List Nat → List (List Nat × JVal)
  | [], _ => []
  | (k', v') :: r, k => if k' = k then jdelL r k else (k', v') :: jdelL r k

end JVal

open JVal in
/-- `json_object_get`: `NULL` unless the value is an object holding the key. -/
def json_object_get : JVal → List Nat → Option JVal
  | .jobj xs, k => lookupK xs k
  | _, _ => none

open JVal in
/-- `json_object_set_new`: fails (returns `none`) on a non-object. -/
def json_object_set_new : JVal → List Nat → JVal → Option JVal
  | .jobj xs, k, v => some (.jobj (jsetL xs k v))
  | _, _, _ => none

open JVal in
/-- `json_object_del` on an object (the library ignores its status). -/
def json_object_del : JVal → List Nat → JVal
  | .jobj xs, k => .jobj (jdelL xs k)
  | v, _ => v

/-- `json_object_clear` on an object. -/
def json_object_clear : JVal → JVal
  | .jobj _ => .jobj []
  | v => v

/-- `json_string_value`: `NULL` on a non-string. -/
def json_string_value : JVal → Option (List Nat)
  | .jstr s => some s
  | _ => none

/-- `json_integer_value`: `0` on a non-integer. -/
def json_integer_value : JVal → Int
  | .jint n => n
  | _ => 0

/-- `json_is_true`. -/
def json_is_true : JVal → Bool
  | .jbool b => b
  | _ => false

mutual

/-- `json_equal`: structural equality; object comparison is
order-insensitive (equal sizes and every key of the left object maps to
an equal value in the right one). -/
def jeq : JVal → JVal → Bool
  | .jnull, .jnull => true
  | .jbool a, .jbool b => a == b
  | .jint a, .jint b => a == b
  | .jstr a, .jstr b => a == b
  | .jarr a, .jarr b => jeqL a b
  | .jobj a, .jobj b => a.length == b.length && jeqO a b
  | _, _ => false

/-- Pointwise `json_equal` on array elements. -/
def jeqL : List JVal → List JVal → Bool
  | [], [] => true
  | a :: ar, b :: br => jeq a b && jeqL ar br
  | _, _ => false

/-- Every entry of the first object is present with an equal value in
the second. -/
def jeqO : List (List Nat × JVal) → List (List Nat × JVal) → Bool
  | [], _ => true
  | (k, v) :: r, b =>
    (match JVal.lookupK b k with
     | some w => jeq v w
     | none => false) && jeqO r b

end

/-- `get_js_string` (value, and whether `errno` was set to `ENOENT`). -/
def get_js_string (js : JVal) (k : List Nat) : Option (List Nat) × Bool :=
  match json_object_get js k with
  | some v => (json_string_value v, false)
  | none => (none, true)

/-- `get_js_int` (value, and whether `errno` was set to `ENOENT`);
`-1` doubles as the "not present" sentinel. -/
def get_js_int (js : JVal) (k : List Nat) : Int × Bool :=
  match json_object_get js k with
  | some v => (json_integer_value v, false)
  | none => (-1, true)

/-- `get_js_bool` (value, and whether `errno` was set to `ENOENT`). -/
def get_js_bool (js : JVal) (k : List Nat) : Int × Bool :=
  match json_object_get js k with
  | some v => (if json_is_true v then 1 else 0, false)
  | none => (-1, true)

/-- The token object `jwt_t`: algorithm, owned key buffer with its
length, and the two JSON objects. -/
structure Jwt where
  alg : JwtAlg
  key : Option (List Nat)
  key_len : Int
  headers : JVal
  grants : JVal

/-- `jwt_new`: empty token. -/
def jwt_new : Jwt :=
  { alg := .NONE, key := none, key_len := 0, headers := .jobj [], grants := .jobj [] }

/-- `jwt_scrub_key`: zero-wipe and drop the key, reset the algorithm. -/
def jwt_scrub_key (t : Jwt) : Jwt :=
  { t with key := none, key_len := 0, alg := .NONE }

/-- `jwt_set_alg`.  The caller passes a key pointer (`none` = `NULL`)
and a separate length; on success the first `len` bytes of the buffer
are copied (the C `memcpy` reads exactly `len` bytes; `List.take` caps
at the buffer size). -/
def jwt_set_alg (t : Jwt) (alg : JwtAlg) (key : Option (List Nat)) (len : Int) :
    Err × Jwt :=
  let t1 := jwt_scrub_key t
  if alg = .INVAL then (.einval, t1)
  else
    match alg with
    | .NONE =>
      if key ≠ none ∨ len ≠ 0 then (.einval, t1)
      else (.ok, { t1 with alg := .NONE, key_len := len })
    | a =>
      if key = none ∨ len ≤ 0 then (.einval, t1)
      else (.ok, { t1 with alg := a, key := some ((key.getD []).take len.toNat),
                           key_len := len })

/-- `jwt_get_alg`. -/
def jwt_get_alg (t : Jwt) : JwtAlg := t.alg

/-- `jwt_get_grant` (string getter) with its final `errno`. -/
def jwt_get_grant (t : Jwt) (g : List Nat) : Option (List Nat) × Err :=
  if g = [] then (none, .einval)
  else
    let r := get_js_string t.grants g
    (r.1, if r.2 then .enoent else .ok)

/-- `jwt_get_grant_int` with its final `errno`. -/
def jwt_get_grant_int (t : Jwt) (g : List Nat) : Int × Err :=
  if g = [] then (0, .einval)
  else
    let r := get_js_int t.grants g
    (r.1, if r.2 then .enoent else .ok)

/-- `jwt_get_grant_bool` with its final `errno`. -/
def jwt_get_grant_bool (t : Jwt) (g : List Nat) : Int × Err :=
  if g = [] then (0, .einval)
  else
    let r := get_js_bool t.grants g
    (r.1, if r.2 then .enoent else .ok)

/-- `jwt_get_header` with its final `errno`. -/
def jwt_get_header (t : Jwt) (h : List Nat) : Option (List Nat) × Err :=
  if h = [] then (none, .einval)
  else
    let r := get_js_string t.headers h
    (r.1, if r.2 then .enoent else .ok)

/-- `jwt_get_header_int` with its final `errno`. -/
def jwt_get_header_int (t : Jwt) (h : List Nat) : Int × Err :=
  if h = [] then (0, .einval)
  else
    let r := get_js_int t.headers h
    (r.1, if r.2 then .enoent else .ok)

/-- `jwt_get_header_bool` with its final `errno`. -/
def jwt_get_header_bool (t : Jwt) (h : List Nat) : Int × Err :=
  if h = [] then (0, .einval)
  else
    let r := get_js_bool t.headers h
    (r.1, if r.2 then .enoent else .ok)

/-- `jwt_add_grant` (string value; a `NULL` name or value is `EINVAL`,
here the name is a plain list and the value is always present). -/
def jwt_add_grant (t : Jwt) (g v : List Nat) : Err × Jwt :=
  if g = [] then (.einval, t)
  else if (get_js_string t.grants g).1 ≠ none then (.eexist, t)
  else
    match json_object_set_new t.grants g (.jstr v) with
    | some G => (.ok, { t with grants := G })
    | none => (.einval, t)

/-- `jwt_add_grant_int`. -/
def jwt_add_grant_int (t : Jwt) (g : List Nat) (v : Int) : Err × Jwt :=
  if g = [] then (.einval, t)
  else if (get_js_int t.grants g).1 ≠ -1 then (.eexist, t)
  else
    match json_object_set_new t.grants g (.jint v) with
    | some G => (.ok, { t with grants := G })
    | none => (.einval, t)

/-- `jwt_add_grant_bool` (`json_boolean(val)` of a C int). -/
def jwt_add_grant_bool (t : Jwt) (g : List Nat) (v : Int) : Err × Jwt :=
  if g = [] then (.einval, t)
  else if (get_js_int t.grants g).1 ≠ -1 then (.eexist, t)
  else
    match json_object_set_new t.grants g (.jbool (v ≠ 0)) with
    | some G => (.ok, { t with grants := G })
    | none => (.einval, t)

/-- `jwt_add_header`. -/
def jwt_add_header (t : Jwt) (h v : List Nat) : Err × Jwt :=
  if h = [] then (.einval, t)
  else if (get_js_string t.headers h).1 ≠ none then (.eexist, t)
  else
    match json_object_set_new t.headers h (.jstr v) with
    | some H => (.ok, { t with headers := H })
    | none => (.einval, t)

/-- `jwt_add_header_int`. -/
def jwt_add_header_int (t : Jwt) (h : List Nat) (v : Int) : Err × Jwt :=
  if h = [] then (.einval, t)
  else if (get_js_int t.headers h).1 ≠ -1 then (.eexist, t)
  else
    match json_object_set_new t.headers h (.jint v) with
    | some H => (.ok, { t with headers := H })
    | none => (.einval, t)

/-- `jwt_add_header_bool`. -/
def jwt_add_header_bool (t : Jwt) (h : List Nat) (v : Int) : Err × Jwt :=
  if h = [] then (.einval, t)
  else if (get_js_int t.headers h).1 ≠ -1 then (.eexist, t)
  else
    match json_object_set_new t.headers h (.jbool (v ≠ 0)) with
    | some H => (.ok, { t with headers := H })
    | none => (.einval, t)

/-- `jwt_del_grants` (empty name clears the whole object). -/
def jwt_del_grants (t : Jwt) (g : List Nat) : Err × Jwt :=
  if g = [] then (.ok, { t with grants := json_object_clear t.grants })
  else (.ok, { t with grants := json_object_del t.grants g })

/-- `jwt_del_headers`. -/
def jwt_del_headers (t : Jwt) (h : List Nat) : Err × Jwt :=
  if h = [] then (.ok, { t with headers := json_object_clear t.headers })
  else (.ok, { t with headers := json_object_del t.headers h })

/-- Byte-lexicographic `strcmp(a, b) <= 0`, the key order used by the
serializer's sorted-keys mode. -/
def keyLe : List Nat → List Nat → Bool
  | [], _ => true
  | _ :: _, [] => false
  | a :: ar, b :: br => if a < b then true else if b < a then false else keyLe ar br

/-- Insert an entry into a key-sorted entry list. -/
def insK (p : List Nat × JVal) : List (List Nat × JVal) → List (List Nat × JVal)
  | [] => [p]
  | q :: r => if keyLe p.1 q.1 then p :: q :: r else q :: insK p r

/-- Insertion sort of object entries by key. -/
def sortK : List (List Nat × JVal) → List (List Nat × JVal)
  | [] => []
  | p :: r => insK p (sortK r)

mutual

/-- Sort object keys at every level: the value whose in-order dump is the
sorted-keys dump of the original. -/
def canon : JVal → JVal
  | .jnull => .jnull
  | .jbool b => .jbool b
  | .jint n => .jint n
  | .jstr s => .jstr s
  | .jarr xs => .jarr (canonL xs)
  | .jobj xs => .jobj (sortK (canonO xs))

/-- `canon` on array elements. -/
def canonL : List JVal → List JVal
  | [] => []
  | v :: r => canon v :: canonL r

/-- `canon` on object entries. -/
def canonO : List (List Nat × JVal) → List (List Nat × JVal)
  | [] => []
  | (k, v) :: r => (k, canon v) :: canonO r

end

/-- Lowercase hex digit of a nibble. -/
def hexDig (n : Nat) : Nat := if n < 10 then 48 + n else 87 + n

/-- JSON string escaping: `"` and `\` get a backslash, control bytes
become `\u00XX`, everything else is emitted verbatim. -/
def escapeJ : List Nat → List Nat
  | [] => []
  | b :: r =>
    (if b = 34 then [92, 34]
     else if b = 92 then [92, 92]
     else if b < 32 then [92, 117, 48, 48, hexDig (b / 16), hexDig (b % 16)]
     else [b]) ++ escapeJ r

/-- Decimal digits of a natural number (most significant first),
fuel-indexed so that it is structurally recursive (any fuel above the
number suffices). -/
def natToDecGo : Nat → Nat → List Nat → List Nat
  | 0, _, acc => acc
  | fuel + 1, n, acc =>
    if n < 10 then (48 + n) :: acc
    else natToDecGo fuel (n / 10) ((48 + n % 10) :: acc)

/-- Decimal representation of a natural number. -/
def natToDec (n : Nat) : List Nat := natToDecGo (n + 1) n []

/-- Decimal representation of an integer. -/
def intDump (n : Int) : List Nat :=
  if n < 0 then 45 :: natToDec (-n).toNat else natToDec n.toNat

mutual

/-- In-order compact JSON serialization (no whitespace); with `canon`
it models the library's sorted-keys compact `json_dumps`. -/
def dumpV : JVal → List Nat
  | .jnull => [110, 117, 108, 108]
  | .jbool true => [116, 114, 117, 101]
  | .jbool false => [102, 97, 108, 115, 101]
  | .jint n => intDump n
  | .jstr s => 34 :: (escapeJ s ++ [34])
  | .jarr xs => 91 :: (dumpL xs ++ [93])
  | .jobj xs => 123 :: (dumpO xs ++ [125])

/-- Comma-joined dumps of array elements. -/
def dumpL : List JVal → List Nat
  | [] => []
  | [v] => dumpV v
  | v :: r => dumpV v ++ 44 :: dumpL r

/-- Comma-joined dumps of object entries (`"key":value`). -/
def dumpO : List (List Nat × JVal) → List Nat
  | [] => []
  | [(k, v)] => 34 :: (escapeJ k ++ [34]) ++ 58 :: dumpV v
  | (k, v) :: r => 34 :: (escapeJ k ++ [34]) ++ 58 :: dumpV v ++ 44 :: dumpO r

end

/-- `json_dumps` with `JSON_SORT_KEYS | JSON_COMPACT`. -/
def jsonDumps (v : JVal) : List Nat := dumpV (canon v)

/-- ASCII digit test. -/
def isDigitB (b : Nat) : Bool := 48 ≤ b && b ≤ 57

/-- JSON insignificant whitespace. -/
def isWs (b : Nat) : Bool := b == 32 || b == 9 || b == 10 || b == 13

/-- Drop leading whitespace. -/
def skipWs : List Nat → List Nat
  | [] => []
  | b :: r => if isWs b then skipWs r else b :: r

/-- Value of a hex digit byte. -/
def hexVal (b : Nat) : Option Nat :=
  if 48 ≤ b ∧ b ≤ 57 then some (b - 48)
  else if 97 ≤ b ∧ b ≤ 102 then some (b - 87)
  else if 65 ≤ b ∧ b ≤ 70 then some (b - 55)
  else none

/-- Single-character JSON escapes. -/
def esc1 (e : Nat) : Option Nat :=
  if e = 34 then some 34
  else if e = 92 then some 92
  else if e = 47 then some 47
  else if e = 98 then some 8
  else if e = 102 then some 12
  else if e = 110 then some 10
  else if e = 114 then some 13
  else if e = 116 then some 9
  else none

/-- Parse a JSON string body (after the opening quote), returning the
unescaped bytes and the input after the closing quote. -/
def pStr : List Nat → Option (List Nat × List Nat)
  | [] => none
  | b :: r =>
    if b = 34 then some ([], r)
    else if b = 92 then
      match r with
      | [] => none
      | 117 :: a :: b2 :: c :: d :: r2 =>
        match hexVal a, hexVal b2, hexVal c, hexVal d with
        | some va, some vb, some vc, some vd =>
          (pStr r2).map (fun p => ((va * 4096 + vb * 256 + vc * 16 + vd) :: p.1, p.2))
        | _, _, _, _ => none
      | e :: r' =>
        match esc1 e with
        | some x => (pStr r').map (fun p => (x :: p.1, p.2))
        | none => none
    else if b < 32 then none
    else (pStr r).map (fun p => (b :: p.1, p.2))

/-- Maximal digit span and the rest. -/
def digSpan (l : List Nat) : List Nat × List Nat :=
  (l.takeWhile isDigitB, l.dropWhile isDigitB)

/-- Numeric value of a digit list. -/
def digVal (l : List Nat) : Nat := l.foldl (fun a d => a * 10 + (d - 48)) 0

/-- After an integer literal the next byte must not extend it into a
real number (the model covers integer-precision JSON only). -/
def numEndOk : List Nat → Bool
  | [] => true
  | b :: _ => !(b = 46 || b = 101 || b = 69 : Bool)

mutual

/-- Fuel-indexed JSON value parser over bytes. -/
def parseVal : Nat → List Nat → Option (JVal × List Nat)
  | 0, _ => none
  | f + 1, l =>
    match skipWs l with
    | [] => none
    | b :: r =>
      if b = 34 then (pStr r).map (fun p => (JVal.jstr p.1, p.2))
      else if b = 91 then (parseItems f true r).map (fun p => (JVal.jarr p.1, p.2))
      else if b = 123 then (parseMembers f true r).map (fun p => (JVal.jobj p.1, p.2))
      else if b = 110 then
        match r with
        | 117 :: 108 :: 108 :: r' => some (JVal.jnull, r')
        | _ => none
      else if b = 116 then
        match r with
        | 114 :: 117 :: 101 :: r' => some (JVal.jbool true, r')
        | _ => none
      else if b = 102 then
        match r with
        | 97 :: 108 :: 115 :: 101 :: r' => some (JVal.jbool false, r')
        | _ => none
      else if b = 45 then
        match digSpan r with
        | ([], _) => none
        | (ds, rest) =>
          if numEndOk rest then some (JVal.jint (-(digVal ds : Int)), rest) else none
      else if isDigitB b then
        match digSpan (b :: r) with
        | ([], _) => none
        | (ds, rest) =>
          if numEndOk rest then some (JVal.jint (digVal ds : Int), rest) else none
      else none

/-- Array elements after `[`; `first` allows an immediate `]`. -/
def parseItems : Nat → Bool → List Nat → Option (List JVal × List Nat)
  | 0, _, _ => none
  | f + 1, first, l =>
    match skipWs l with
    | [] => none
    | b :: r =>
      if b = 93 then (if first then some ([], r) else none)
      else
        match parseVal f (b :: r) with
        | none => none
        | some (v, r1) =>
          match skipWs r1 with
          | [] => none
          | c :: r2 =>
            if c = 44 then (parseItems f false r2).map (fun p => (v :: p.1, p.2))
            else if c = 93 then some ([v], r2)
            else none

/-- Object members after `{`; `first` allows an immediate `}`. -/
def parseMembers : Nat → Bool → List Nat →
    Option (List (List Nat × JVal) × List Nat)
  | 0, _, _ => none
  | f + 1, first, l =>
    match skipWs l with
    | [] => none
    | b :: r =>
      if b = 125 then (if first then some ([], r) else none)
      else if b = 34 then
        match pStr r with
        | none => none
        | some (k, r1) =>
          match skipWs r1 with
          | [] => none
          | c :: r2 =>
            if c = 58 then
              match parseVal f r2 with
              | none => none
              | some (v, r3) =>
                match skipWs r3 with
                | [] => none
                | e :: r4 =>
                  if e = 44 then
                    (parseMembers f false r4).map (fun p => ((k, v) :: p.1, p.2))
                  else if e = 125 then some ([(k, v)], r4)
                  else none
            else none
      else none

end

/-- `json_loads` with flags `0`: the root must be an object or an array
and the whole input (up to trailing whitespace) must be consumed. -/
def jsonLoads (l : List Nat) : Option JVal :=
  match skipWs l with
  | 91 :: r =>
    match parseItems (l.length + 1) true r with
    | some (xs, rest) => if skipWs rest = [] then some (.jarr xs) else none
    | none => none
  | 123 :: r =>
    match parseMembers (l.length + 1) true r with
    | some (xs, rest) => if skipWs rest = [] then some (.jobj xs) else none
    | none => none
  | _ => none

/-- Base64 alphabet character for a 6-bit value. -/
def b64char (n : Nat) : Nat :=
  if n < 26 then 65 + n
  else if n < 52 then 97 + (n - 26)
  else if n < 62 then 48 + (n - 52)
  else if n = 62 then 43
  else 47

/-- Inverse base64 table: 6-bit value, or `64` for non-alphabet bytes
(including `=`). -/
def b64v (c : Nat) : Nat :=
  if 65 ≤ c ∧ c ≤ 90 then c - 65
  else if 97 ≤ c ∧ c ≤ 122 then c - 71
  else if 48 ≤ c ∧ c ≤ 57 then c + 4
  else if c = 43 then 62
  else if c = 47 then 63
  else 64

/-- `jwt_Base64encode` (standard base64 of a byte list, with `=`
padding).  Modelled from the spec: the base64 codec is the external
"pure byte-in/byte-out component". -/
def b64enc : List Nat → List Nat
  | [] => []
  | [a] => [b64char (a / 4), b64char (a % 4 * 16), 61, 61]
  | [a, b] => [b64char (a / 4), b64char (a % 4 * 16 + b / 16), b64char (b % 16 * 4), 61]
  | a :: b :: c :: r =>
    b64char (a / 4) :: b64char (a % 4 * 16 + b / 16) ::
    b64char (b % 16 * 4 + c / 64) :: b64char (c % 64) :: b64enc r

/-- `jwt_base64uri_encode`: `+` to `-`, `/` to `_`, drop `=`. -/
def uriEnc : List Nat → List Nat
  | [] => []
  | c :: r =>
    if c = 61 then uriEnc r
    else (if c = 43 then 45 else if c = 47 then 95 else c) :: uriEnc r

/-- The `-`/`_` to `+`/`/` translation inside `jwt_b64_decode`. -/
def uriToStd (l : List Nat) : List Nat :=
  l.map (fun c => if c = 45 then 43 else if c = 95 then 47 else c)

/-- Re-pad with `=` to a multiple of four (`z = 4 - len % 4; if (z < 4)`
append `z` pad bytes), as in `jwt_b64_decode`. -/
def padEq (l : List Nat) : List Nat :=
  let z := 4 - l.length % 4
  if z < 4 then l ++ List.replicate z 61 else l

/-- `jwt_Base64decode` on 6-bit values: groups of four give three bytes,
a trailing group of `n` gives `n - 1` bytes.  Modelled from the spec's
base64 contract. -/
def b64dec6 : List Nat → List Nat
  | [] => []
  | [_] => []
  | [a, b] => [a * 4 + b / 16]
  | [a, b, c] => [a * 4 + b / 16, b % 16 * 16 + c / 4]
  | a :: b :: c :: d :: rest =>
    (a * 4 + b / 16) :: (b % 16 * 16 + c / 4) :: (c % 4 * 64 + d % 64) :: b64dec6 rest

/-- `jwt_b64_decode`: translate the URL-safe alphabet back, re-pad,
then standard base64 decode of the maximal valid-character span. -/
def jwt_b64_dec (src : List Nat) : List Nat :=
  b64dec6 (((padEq (uriToStd src)).takeWhile (fun c => b64v c ≤ 63)).map b64v)

/-- `jwt_b64_decode_json`: base64url-decode, NUL-terminate (a C string
stops at the first zero byte), and parse. -/
def jwt_b64_decode_json (src : List Nat) : Option JVal :=
  jsonLoads ((jwt_b64_dec src).takeWhile (fun b => b ≠ 0))

/-- The crypto sign operation (`jwt_sign_sha_hmac` / `jwt_sign_sha_pem`),
an external oracle: algorithm, key, key length, signing input ↦ raw
signature bytes, or failure. -/
def SignFn := JwtAlg → Option (List Nat) → Int → List Nat → Option (List Nat)

/-- The crypto verify operation (`jwt_verify_sha_hmac` /
`jwt_verify_sha_pem`), an external oracle: algorithm, key, key length,
signing input, base64url signature text ↦ success. -/
def VerifyFn := JwtAlg → Option (List Nat) → Int → List Nat → List Nat → Bool

/-- Second half of `jwt_write_head`: delete any `alg` header and add the
canonical algorithm name. -/
def jwt_write_head_alg (t : Jwt) : Err × Jwt :=
  match jwt_alg_str (jwt_del_headers t (ascii "alg")).2.alg with
  | some name => jwt_add_header (jwt_del_headers t (ascii "alg")).2 (ascii "alg") name
  | none => (.einval, (jwt_del_headers t (ascii "alg")).2)

/-- `jwt_write_head`: when signing, refresh `typ = "JWT"`; always
refresh `alg` with the canonical name.  Returns the mutated token. -/
def jwt_write_head (t : Jwt) : Err × Jwt :=
  if t.alg ≠ .NONE then
    match jwt_add_header (jwt_del_headers t (ascii "typ")).2 (ascii "typ") (ascii "JWT") with
    | (.ok, t2) => jwt_write_head_alg t2
    | e => e
  else jwt_write_head_alg t

/-- `jwt_encode`: canonical header injection, sorted compact dumps,
base64url segments, optional signature.  Returns the compact string and
the token (whose headers were mutated by `jwt_write_head`). -/
def jwt_encode (sg : SignFn) (t : Jwt) : Option (List Nat) × Jwt :=
  match jwt_write_head t with
  | (.ok, t1) =>
    let head := uriEnc (b64enc (jsonDumps t1.headers))
    let body := uriEnc (b64enc (jsonDumps t1.grants))
    let si := head ++ 46 :: body
    if t1.alg = .NONE then (some (si ++ [46]), t1)
    else
      match sg t1.alg t1.key t1.key_len si with
      | some sig => (some (si ++ 46 :: uriEnc (b64enc sig)), t1)
      | none => (none, t1)
  | (_, t1) => (none, t1)

/-- Split a byte string at its first `.` (the decode segmentation loop:
scan for `'.'`, fail at the terminating NUL). -/
def splitDot : List Nat → Option (List Nat × List Nat)
  | [] => none
  | c :: r =>
    if c = 46 then some ([], r)
    else (splitDot r).map (fun p => (c :: p.1, p.2))

/-- The decode segmentation: head, body and signature segments, split at
the first two dots (anything after the second dot is the signature). -/
def jwt_split (token : List Nat) : Option (List Nat × List Nat × List Nat) :=
  match splitDot token with
  | none => none
  | some (head, rest) =>
    match splitDot rest with
    | none => none
    | some (body, sig) => some (head, body, sig)

/-- `jwt_parse_head` / `jwt_parse_body`: decode-and-parse one segment. -/
def jwt_parse_seg (seg : List Nat) : Option JVal := jwt_b64_decode_json seg

/-- `jwt_verify_head`: parse the header, read `alg`, check `typ` for
signed tokens, and reconcile the key (a missing key scrubs the token;
for `NONE` a supplied key is invalid). -/
def jwt_verify_head (t : Jwt) (head : List Nat) : Err × Jwt :=
  match jwt_parse_seg head with
  | none => (.einval, t)
  | some hv =>
    let t1 := { t with headers := hv }
    let a := jwt_str_alg (get_js_string hv (ascii "alg")).1
    let t2 := { t1 with alg := a }
    if a = .INVAL then (.einval, t2)
    else if a ≠ .NONE then
      let typErr : Bool :=
        match (get_js_string hv (ascii "typ")).1 with
        | some tv => !ieq tv (ascii "JWT")
        | none => false
      if t2.key ≠ none then
        (if typErr ∨ t2.key_len ≤ 0 then .einval else .ok, t2)
      else
        (if typErr then .einval else .ok, jwt_scrub_key t2)
    else
      if t2.key ≠ none then (.einval, t2) else (.ok, t2)

/-- `jwt_decode`.  The key is a byte buffer with `key_len = key.length`
(`[]` = no key, as in a `NULL`/zero-length caller). -/
def jwt_decode (vf : VerifyFn) (token key : List Nat) : Err × Option Jwt :=
  match jwt_split token with
  | none => (.einval, none)
  | some (head, body, sig) =>
    let t0 :=
      if key.length ≠ 0 then
        { jwt_new with key := some key, key_len := (key.length : Int) }
      else jwt_new
    match jwt_verify_head t0 head with
    | (.ok, t1) =>
      match jwt_parse_seg body with
      | none => (.einval, none)
      | some bv =>
        let t2 := { t1 with grants := bv }
        if t2.alg ≠ .NONE then
          if vf t2.alg t2.key t2.key_len (head ++ 46 :: body) sig then (.ok, some t2)
          else (.einval, none)
        else (.ok, some t2)
    | (e, _) => (e, none)

/-- The validator object `jwt_valid_t`. -/
structure JwtValid where
  alg : JwtAlg
  now : Int
  hdr : Int
  req_grants : JVal
  status : Option (List Nat)

/-- `jwt_valid_new`. -/
def jwt_valid_new (alg : JwtAlg) : JwtValid :=
  { alg := alg, now := 0, hdr := 0, req_grants := .jobj [], status := none }

/-- The first failing required grant, with its status message
(`json_object_foreach` in insertion order). -/
def reqGrantCheck (grants : JVal) : List (List Nat × JVal) → Option (List Nat)
  | [] => none
  | (k, v) :: r =>
    match json_object_get grants k with
    | some act =>
      if jeq v act then reqGrantCheck grants r
      else some (ascii "JWT \"" ++ k ++ ascii "\" grant does not match")
    | none => some (ascii "JWT \"" ++ k ++ ascii "\" grant is not present")

/-- `jwt_validate`: result (`1` valid, `0` invalid, `-1` error) and the
status message left in the validator. -/
def jwt_validate (t : Option Jwt) (v : JwtValid) : Int × Option (List Nat) :=
  match t with
  | none => (-1, some (ascii "Invalid JWT"))
  | some jwt =>
    if v.alg ≠ jwt_get_alg jwt then (0, some (ascii "Algorithm does not match"))
    else
      let jexp := (get_js_int jwt.grants (ascii "exp")).1
      if v.now ≠ 0 ∧ jexp ≠ -1 ∧ v.now ≥ jexp then
        (0, some (ascii "JWT has expired"))
      else
        let jnbf := (get_js_int jwt.grants (ascii "nbf")).1
        if v.now ≠ 0 ∧ jnbf ≠ -1 ∧ v.now < jnbf then
          (0, some (ascii "JWT has not matured"))
        else
          let hiss := (get_js_string jwt.headers (ascii "iss")).1
          let giss := (get_js_string jwt.grants (ascii "iss")).1
          if hiss ≠ none ∧ giss ≠ none ∧ hiss ≠ giss then
            (0, some (ascii "JWT \"iss\" header does not match"))
          else
            let hsub := (get_js_string jwt.headers (ascii "sub")).1
            let gsub := (get_js_string jwt.grants (ascii "sub")).1
            if hsub ≠ none ∧ gsub ≠ none ∧ hsub ≠ gsub then
              (0, some (ascii "JWT \"sub\" header does not match"))
            else
              match json_object_get jwt.headers (ascii "aud"),
                    json_object_get jwt.grants (ascii "aud") with
              | some haud, some gaud =>
                if !jeq haud gaud then
                  (0, some (ascii "JWT \"aud\" header does not match"))
                else
                  match v.req_grants with
                  | .jobj reqs =>
                    match reqGrantCheck jwt.grants reqs with
                    | some msg => (0, some msg)
                    | none => (1, some (ascii "Valid JWT"))
                  | _ => (1, some (ascii "Valid JWT"))
              | _, _ =>
                match v.req_grants with
                | .jobj reqs =>
                  match reqGrantCheck jwt.grants reqs with
                  | some msg => (0, some msg)
                  | none => (1, some (ascii "Valid JWT"))
                | _ => (1, some (ascii "Valid JWT"))

namespace JVal

theorem lookupK_jsetL (xs : List (List Nat × JVal)) (k k' : List Nat) (v : JVal) :
    lookupK (jsetL xs k v) k' = if k' = k then some v else lookupK xs k' := by
  induction xs with
  | nil =>
    by_cases h : k = k'
    · subst h; simp [jsetL, lookupK]
    · have h' : ¬ k' = k := fun hh => h hh.symm
      simp [jsetL, lookupK, h, h']
  | cons p r ih =>
    obtain ⟨k0, v0⟩ := p
    by_cases h0 : k0 = k
    · subst h0
      by_cases h : k0 = k'
      · subst h; simp [jsetL, lookupK]
      · have h' : ¬ k' = k0 := fun hh => h hh.symm
        simp [jsetL, lookupK, h, h']
    · by_cases h1 : k0 = k'
      · subst h1
        simp [jsetL, lookupK, h0]
      · by_cases h2 : k' = k
        · subst h2; simp [jsetL, lookupK, h0, h1, ih]
        · simp [jsetL, lookupK, h0, h1, h2, ih]

theorem lookupK_jdelL (xs : List (List Nat × JVal)) (k k' : List Nat) :
    lookupK (jdelL xs k) k' = if k' = k then none else lookupK xs k' := by
  induction xs with
  | nil => by_cases h : k' = k <;> simp [jdelL, lookupK, h]
  | cons p r ih =>
    obtain ⟨k0, v0⟩ := p
    by_cases h0 : k0 = k
    · subst h0
      by_cases h : k0 = k'
      · subst h; simp [jdelL, lookupK, ih]
      · have h' : ¬ k' = k0 := fun hh => h hh.symm
        simp [jdelL, lookupK, h, h', ih]
    · by_cases h1 : k0 = k'
      · subst h1
        simp [jdelL, lookupK, h0]
      · by_cases h2 : k' = k
        · subst h2; simp [jdelL, lookupK, h0, h1, ih]
        · simp [jdelL, lookupK, h0, h1, h2, ih]

end JVal

/-- C8: building the empty token, setting algorithm `NONE`, and encoding
produces exactly the string `eyJhbGciOiJub25lIn0.e30.` — header
`{"alg":"none"}`, body `{}`, and a trailing dot with an empty signature
segment. -/
theorem jwt_encode_empty_none_exact (sg : SignFn) :
    (jwt_encode sg (jwt_set_alg jwt_new .NONE none 0).2).1 =
      some (ascii "eyJhbGciOiJub25lIn0.e30.") := rfl

/-- C2: `jwt_set_alg` scrubs the key first (observable whenever it
rejects), returns `EINVAL` exactly for an out-of-enum algorithm, a
non-`NONE` algorithm without a positive-length key, or `NONE` with any
key material; on success it installs the algorithm and copies the key;
and afterwards `alg == NONE ⇔ key is absent` always holds. -/
theorem jwt_set_alg_spec (t : Jwt) (a : JwtAlg) (k : Option (List Nat)) (len : Int) :
    ((jwt_set_alg t a k len).1 ≠ .ok → (jwt_set_alg t a k len).2 = jwt_scrub_key t) ∧
    ((jwt_set_alg t a k len).1 = .einval ↔
      (a = .INVAL ∨ (a ≠ .NONE ∧ (k = none ∨ len ≤ 0)) ∨
        (a = .NONE ∧ (k ≠ none ∨ len ≠ 0)))) ∧
    ((jwt_set_alg t a k len).1 = .ok →
      (jwt_set_alg t a k len).2.alg = a ∧
      (a ≠ .NONE →
        (jwt_set_alg t a k len).2.key = some ((k.getD []).take len.toNat))) ∧
    ((jwt_set_alg t a k len).2.alg = .NONE ↔ (jwt_set_alg t a k len).2.key = none) := by
  cases a <;> cases k <;>
    simp only [jwt_set_alg, jwt_scrub_key] <;>
    split_ifs with h <;>
    simp_all

/-- C2 witness: a rejected call (key supplied with `NONE`) leaves the
scrubbed token, and a successful `HS256` call installs the algorithm. -/
theorem jwt_set_alg_spec_witness :
    (jwt_set_alg jwt_new .NONE (some [1]) 1).2 = jwt_scrub_key jwt_new ∧
    (jwt_set_alg jwt_new .HS256 (some (ascii "secret")) 6).2.alg = .HS256 :=
  ⟨(jwt_set_alg_spec jwt_new .NONE (some [1]) 1).1 (by decide),
   ((jwt_set_alg_spec jwt_new .HS256 (some (ascii "secret")) 6).2.2.1 (by decide)).1⟩

/-- C4 counterexample: on a missing grant name the integer getter
returns `-1` (with the "not present" indicator), not the type's zero
value claimed. -/
theorem jwt_get_grant_int_missing_not_zero :
    jwt_get_grant_int jwt_new (ascii "x") = (-1, .enoent) ∧ (-1 : Int) ≠ 0 := by
  constructor
  · rfl
  · decide

/-- C4 (amended): for a name missing from the JSON object, every typed
getter sets the "not present" error indicator (`ENOENT`); the string
getters return `NULL`, while the integer and boolean getters return
`-1` (not the type's zero). -/
theorem jwt_getters_missing (t : Jwt) (g : List Nat) (hg : g ≠ [])
    (hgr : json_object_get t.grants g = none)
    (hhd : json_object_get t.headers g = none) :
    jwt_get_grant t g = (none, .enoent) ∧
    jwt_get_grant_int t g = (-1, .enoent) ∧
    jwt_get_grant_bool t g = (-1, .enoent) ∧
    jwt_get_header t g = (none, .enoent) ∧
    jwt_get_header_int t g = (-1, .enoent) ∧
    jwt_get_header_bool t g = (-1, .enoent) := by
  simp [jwt_get_grant, jwt_get_grant_int, jwt_get_grant_bool,
        jwt_get_header, jwt_get_header_int, jwt_get_header_bool,
        get_js_string, get_js_int, get_js_bool, hg, hgr, hhd]

/-- C4 witness: the empty token and the name `"x"`. -/
theorem jwt_getters_missing_witness :
    jwt_get_grant jwt_new (ascii "x") = (none, .enoent) ∧
    jwt_get_grant_int jwt_new (ascii "x") = (-1, .enoent) ∧
    jwt_get_grant_bool jwt_new (ascii "x") = (-1, .enoent) ∧
    jwt_get_header jwt_new (ascii "x") = (none, .enoent) ∧
    jwt_get_header_int jwt_new (ascii "x") = (-1, .enoent) ∧
    jwt_get_header_bool jwt_new (ascii "x") = (-1, .enoent) :=
  jwt_getters_missing jwt_new (ascii "x") (by decide) rfl rfl

/-- C6 counterexample: a token whose grants contain `"exp"` as the
integer `-1` with `now = 1000` satisfies the claim's premises
(`now != 0`, `exp` present as integer, `now >= exp`), yet validation
returns *valid* instead of "JWT has expired": `-1` is conflated with
"no exp grant". -/
theorem jwt_validate_exp_minus_one_not_expired :
    (1000 : Int) ≠ 0 ∧
    json_object_get (JVal.jobj [(ascii "exp", .jint (-1))]) (ascii "exp") =
      some (.jint (-1)) ∧
    (1000 : Int) ≥ -1 ∧
    jwt_validate
      (some { jwt_new with grants := .jobj [(ascii "exp", .jint (-1))] })
      { jwt_valid_new .NONE with now := 1000 } =
      (1, some (ascii "Valid JWT")) := by
  refine ⟨by decide, rfl, by decide, rfl⟩

/-- C6 (amended): with matching algorithm, `now != 0`, an integer `exp`
grant whose value is not the `-1` sentinel, and `now >= exp`, validation
fails with status "JWT has expired". -/
theorem jwt_validate_expired (t : Jwt) (v : JwtValid) (e : Int)
    (halg : v.alg = t.alg) (hnow : v.now ≠ 0)
    (hexp : json_object_get t.grants (ascii "exp") = some (.jint e))
    (hne : e ≠ -1) (hge : v.now ≥ e) :
    jwt_validate (some t) v = (0, some (ascii "JWT has expired")) := by
  have h1 : ¬ v.alg ≠ jwt_get_alg t := by simp [jwt_get_alg, halg]
  simp [jwt_validate, h1, get_js_int, hexp, json_integer_value, hnow, hne, hge]

/-- C6 witness: grants `{"exp":1000}` and `now = 2000` give
"JWT has expired". -/
theorem jwt_validate_expired_witness :
    jwt_validate
      (some { jwt_new with grants := .jobj [(ascii "exp", .jint 1000)] })
      { jwt_valid_new .NONE with now := 2000 } =
      (0, some (ascii "JWT has expired")) :=
  jwt_validate_expired _ _ 1000 rfl (by decide) rfl (by decide) (by decide)

theorem jwt_alg_str_eq_none (a : JwtAlg) : jwt_alg_str a = none ↔ a = .INVAL := by
  cases a <;> simp [jwt_alg_str]

/-- `jwt_del_headers` on an object with a nonempty name. -/
theorem jwt_del_headers_obj (t : Jwt) (xs : List (List Nat × JVal)) (k : List Nat)
    (hh : t.headers = .jobj xs) (hk : k ≠ []) :
    jwt_del_headers t k = (.ok, { t with headers := .jobj (JVal.jdelL xs k) }) := by
  simp [jwt_del_headers, hk, hh, json_object_del]

/-- `jwt_add_header` on an object in which the name is absent. -/
theorem jwt_add_header_fresh (t : Jwt) (xs : List (List Nat × JVal)) (k v : List Nat)
    (hh : t.headers = .jobj xs) (hk : k ≠ [])
    (hmiss : JVal.lookupK xs k = none) :
    jwt_add_header t k v = (.ok, { t with headers := .jobj (JVal.jsetL xs k (.jstr v)) }) := by
  simp [jwt_add_header, hk, get_js_string, json_object_get, hh, hmiss,
    json_object_set_new]

/-- `jwt_write_head_alg` on an object. -/
theorem jwt_write_head_alg_eq (t : Jwt) (xs : List (List Nat × JVal)) (name : List Nat)
    (hh : t.headers = .jobj xs) (halg : jwt_alg_str t.alg = some name) :
    jwt_write_head_alg t =
      (.ok, { t with headers := .jobj (JVal.jsetL (JVal.jdelL xs (ascii "alg"))
        (ascii "alg") (.jstr name)) }) := by
  have hd := jwt_del_headers_obj t xs (ascii "alg") hh (by decide)
  have hmiss : JVal.lookupK (JVal.jdelL xs (ascii "alg")) (ascii "alg") = none := by
    simp [JVal.lookupK_jdelL]
  have hadd := jwt_add_header_fresh { t with headers := .jobj (JVal.jdelL xs (ascii "alg")) }
    (JVal.jdelL xs (ascii "alg")) (ascii "alg") name rfl (by decide) hmiss
  simp only [jwt_write_head_alg, hd, hadd, halg]

/-- The headers produced by `jwt_write_head` on an object, explicitly. -/
theorem jwt_write_head_eq (t : Jwt) (xs : List (List Nat × JVal))
    (hh : t.headers = .jobj xs) (ha : t.alg ≠ .INVAL) :
    jwt_write_head t =
      (.ok, { t with headers := .jobj (JVal.jsetL
        (JVal.jdelL
          (if t.alg = .NONE then xs
           else JVal.jsetL (JVal.jdelL xs (ascii "typ")) (ascii "typ")
                  (.jstr (ascii "JWT")))
          (ascii "alg"))
        (ascii "alg") (.jstr ((jwt_alg_str t.alg).getD []))) }) := by
  rcases halg : jwt_alg_str t.alg with _ | name
  · exact absurd ((jwt_alg_str_eq_none t.alg).mp halg) ha
  by_cases hn : t.alg = .NONE
  · have hwa := jwt_write_head_alg_eq t xs name hh halg
    simp only [jwt_write_head, hn, ne_eq, not_true_eq_false, if_false, hwa,
      if_pos, Option.getD_some]
  · have hd := jwt_del_headers_obj t xs (ascii "typ") hh (by decide)
    have hmiss : JVal.lookupK (JVal.jdelL xs (ascii "typ")) (ascii "typ") = none := by
      simp [JVal.lookupK_jdelL]
    have hadd := jwt_add_header_fresh { t with headers := .jobj (JVal.jdelL xs (ascii "typ")) }
      (JVal.jdelL xs (ascii "typ")) (ascii "typ") (ascii "JWT") rfl (by decide) hmiss
    have hwa := jwt_write_head_alg_eq
      { t with headers := .jobj (JVal.jsetL (JVal.jdelL xs (ascii "typ")) (ascii "typ")
          (.jstr (ascii "JWT"))) }
      (JVal.jsetL (JVal.jdelL xs (ascii "typ")) (ascii "typ") (.jstr (ascii "JWT")))
      name rfl halg
    simp only [jwt_write_head, hn, ne_eq, not_false_eq_true, if_true, hd, hadd, hwa,
      if_neg, Option.getD_some]

/-- C3 counterexample: a token with algorithm `NONE` whose headers
already contain `typ = "JWT"` keeps that entry through
`jwt_write_head`, so "`typ == "JWT"` iff `alg != NONE`" fails: with
`alg == NONE` the emitted header still carries `typ = "JWT"`. -/
theorem jwt_write_head_typ_iff_fails :
    ¬ (json_object_get
        (jwt_write_head
          { jwt_new with headers := .jobj [(ascii "typ", .jstr (ascii "JWT"))] }).2.headers
        (ascii "typ") = some (.jstr (ascii "JWT")) ↔
       (jwt_write_head
          { jwt_new with headers := .jobj [(ascii "typ", .jstr (ascii "JWT"))] }).2.alg
         ≠ .NONE) :=
  fun h => (h.mp rfl) rfl

/-- C3 (amended): after `jwt_write_head` the emitted header object's
`alg` entry is the canonical algorithm string; if `alg != NONE` then
`typ = "JWT"` was (re)inserted, while for `alg == NONE` any existing
`typ` entry is left untouched; and no entry other than `alg` and `typ`
is altered. -/
theorem jwt_write_head_canonical (t : Jwt) (xs : List (List Nat × JVal))
    (hh : t.headers = .jobj xs) (ha : t.alg ≠ .INVAL) :
    (jwt_write_head t).1 = .ok ∧
    json_object_get (jwt_write_head t).2.headers (ascii "alg") =
      (jwt_alg_str t.alg).map .jstr ∧
    (t.alg ≠ .NONE →
      json_object_get (jwt_write_head t).2.headers (ascii "typ") =
        some (.jstr (ascii "JWT"))) ∧
    (t.alg = .NONE →
      json_object_get (jwt_write_head t).2.headers (ascii "typ") =
        json_object_get t.headers (ascii "typ")) ∧
    (∀ k, k ≠ ascii "alg" → k ≠ ascii "typ" →
      json_object_get (jwt_write_head t).2.headers k =
        json_object_get t.headers k) ∧
    (jwt_write_head t).2.alg = t.alg ∧
    (jwt_write_head t).2.grants = t.grants := by
  rw [jwt_write_head_eq t xs hh ha]
  rcases halg : jwt_alg_str t.alg with _ | name
  · exact absurd ((jwt_alg_str_eq_none t.alg).mp halg) ha
  refine ⟨rfl, ?_, ?_, ?_, ?_, rfl, rfl⟩
  · simp [json_object_get, JVal.lookupK_jsetL, halg]
  · intro hn
    have h1 : ascii "typ" ≠ ascii "alg" := by decide
    simp [json_object_get, JVal.lookupK_jsetL, JVal.lookupK_jdelL, h1, hn,
      JVal.lookupK]
  · intro hn
    have h1 : ascii "typ" ≠ ascii "alg" := by decide
    simp [json_object_get, JVal.lookupK_jsetL, JVal.lookupK_jdelL, h1, hn, hh]
  · intro k hka hkt
    simp only [json_object_get, JVal.lookupK_jsetL, JVal.lookupK_jdelL, hka, hkt,
      if_false, hh]
    split_ifs with hn
    · rfl
    · simp [JVal.lookupK_jsetL, JVal.lookupK_jdelL, hka, hkt]

/-- C3 witness: an `HS256` token with a stale `typ`, a stale `alg` and
an unrelated header `kid`. -/
theorem jwt_write_head_canonical_witness :
    (jwt_write_head
      { alg := .HS256, key := some [1], key_len := 1,
        headers := .jobj [(ascii "typ", .jstr (ascii "old")),
                          (ascii "alg", .jstr (ascii "none")),
                          (ascii "kid", .jint 7)],
        grants := .jobj [] }).1 = .ok ∧
    json_object_get
      (jwt_write_head
        { alg := .HS256, key := some [1], key_len := 1,
          headers := .jobj [(ascii "typ", .jstr (ascii "old")),
                            (ascii "alg", .jstr (ascii "none")),
                            (ascii "kid", .jint 7)],
          grants := .jobj [] }).2.headers (ascii "alg") =
      (jwt_alg_str JwtAlg.HS256).map .jstr ∧
    json_object_get
      (jwt_write_head
        { alg := .HS256, key := some [1], key_len := 1,
          headers := .jobj [(ascii "typ", .jstr (ascii "old")),
                            (ascii "alg", .jstr (ascii "none")),
                            (ascii "kid", .jint 7)],
          grants := .jobj [] }).2.headers (ascii "typ") =
      some (.jstr (ascii "JWT")) ∧
    json_object_get
      (jwt_write_head
        { alg := .HS256, key := some [1], key_len := 1,
          headers := .jobj [(ascii "typ", .jstr (ascii "old")),
                            (ascii "alg", .jstr (ascii "none")),
                            (ascii "kid", .jint 7)],
          grants := .jobj [] }).2.headers (ascii "kid") =
      some (.jint 7) := by
  have h := jwt_write_head_canonical
    { alg := .HS256, key := some [1], key_len := 1,
      headers := .jobj [(ascii "typ", .jstr (ascii "old")),
                        (ascii "alg", .jstr (ascii "none")),
                        (ascii "kid", .jint 7)],
      grants := .jobj [] }
    [(ascii "typ", .jstr (ascii "old")), (ascii "alg", .jstr (ascii "none")),
     (ascii "kid", .jint 7)] rfl (by decide)
  refine ⟨h.1, h.2.1, h.2.2.1 (by decide), ?_⟩
  rw [h.2.2.2.2.1 (ascii "kid") (by decide) (by decide)]
  rfl

/-- C5 counterexample: after `add_grant_int("x", -1)` the name `"x"` is
present, yet a second `add_grant_int("x", 7)` is not rejected with
*Exists* — the typed probe reads `-1` ("absent") — and it overwrites
the entry with `7`. -/
theorem jwt_add_grant_int_dup_overwrites :
    json_object_get (jwt_add_grant_int jwt_new (ascii "x") (-1)).2.grants (ascii "x") =
      some (.jint (-1)) ∧
    (jwt_add_grant_int (jwt_add_grant_int jwt_new (ascii "x") (-1)).2 (ascii "x") 7).1 =
      .ok ∧
    (get_js_int
      (jwt_add_grant_int (jwt_add_grant_int jwt_new (ascii "x") (-1)).2 (ascii "x") 7).2.grants
      (ascii "x")).1 = 7 := by
  refine ⟨rfl, by decide, by decide⟩

/-- C5 (amended): a second add of an already-present name is rejected
with *Exists* and leaves the object unchanged exactly when the variant's
typed probe detects the entry: for the string variant an existing string
value, for the int/bool variants an existing value whose integer reading
is not `-1`.  (Otherwise the add overwrites, as the counterexample
shows.) -/
theorem jwt_add_dup_detected (t : Jwt) (g v : List Nat) (n : Int) (w : JVal)
    (hg : g ≠ []) :
    (json_object_get t.grants g = some w →
      (json_string_value w ≠ none → jwt_add_grant t g v = (.eexist, t)) ∧
      (json_integer_value w ≠ -1 →
        jwt_add_grant_int t g n = (.eexist, t) ∧
        jwt_add_grant_bool t g n = (.eexist, t))) ∧
    (json_object_get t.headers g = some w →
      (json_string_value w ≠ none → jwt_add_header t g v = (.eexist, t)) ∧
      (json_integer_value w ≠ -1 →
        jwt_add_header_int t g n = (.eexist, t) ∧
        jwt_add_header_bool t g n = (.eexist, t))) := by
  refine ⟨fun hw => ⟨fun hs => ?_, fun hi => ⟨?_, ?_⟩⟩,
          fun hw => ⟨fun hs => ?_, fun hi => ⟨?_, ?_⟩⟩⟩ <;>
    simp_all [jwt_add_grant, jwt_add_grant_int, jwt_add_grant_bool,
      jwt_add_header, jwt_add_header_int, jwt_add_header_bool,
      get_js_string, get_js_int, hg]

/-- C5 witness: adding the string grant `"x"` twice gives *Exists* and
leaves the token unchanged. -/
theorem jwt_add_dup_detected_witness :
    jwt_add_grant (jwt_add_grant jwt_new (ascii "x") (ascii "y")).2 (ascii "x")
      (ascii "z") = (.eexist, (jwt_add_grant jwt_new (ascii "x") (ascii "y")).2) :=
  ((jwt_add_dup_detected (jwt_add_grant jwt_new (ascii "x") (ascii "y")).2
      (ascii "x") (ascii "z") 0 (.jstr (ascii "y")) (by decide)).1 rfl).1
    (by simp [json_string_value])


/-- The first-dot split fails exactly on dot-free strings. -/
theorem splitDot_none_iff (l : List Nat) : splitDot l = none ↔ l.count 46 = 0 := by
  induction l with
  | nil => simp [splitDot]
  | cons c r ih =>
    by_cases h : c = 46
    · subst h; simp [splitDot, List.count_cons]
    · cases hs : splitDot r <;>
        simp [hs, splitDot, List.count_cons, h] at ih ⊢ <;> omega

/-- A successful first-dot split decomposes the input. -/
theorem splitDot_some (l sg r : List Nat) (hs : splitDot l = some (sg, r)) :
    l = sg ++ 46 :: r ∧ sg.count 46 = 0 := by
  induction l generalizing sg with
  | nil => simp [splitDot] at hs
  | cons c l' ih =>
    by_cases hc : c = 46
    · subst hc
      simp [splitDot] at hs
      obtain ⟨h1, h2⟩ := hs
      subst h1; subst h2; simp
    · simp [splitDot, hc] at hs
      cases hs' : splitDot l' with
      | none => rw [hs'] at hs; simp at hs
      | some p =>
        obtain ⟨a, b⟩ := p
        rw [hs'] at hs
        simp at hs
        obtain ⟨h1, ⟨ha, hb⟩, hh⟩ := hs
        subst ha; subst hb; subst hh
        obtain ⟨e1, e2⟩ := ih a hs'
        subst e1
        simp [List.count_cons, e2, hc]

/-- Splitting a string with an explicit first dot. -/
theorem splitDot_append (sg r : List Nat) (hd : sg.count 46 = 0) :
    splitDot (sg ++ 46 :: r) = some (sg, r) := by
  induction sg with
  | nil => simp [splitDot]
  | cons c s ih =>
    have hc : c ≠ 46 := by
      intro h; subst h; simp [List.count_cons] at hd
    have hs : s.count 46 = 0 := by
      simp [List.count_cons] at hd; omega
    simp [splitDot, hc, ih hs]

/-- Appending bytes after a successful split leaves the first segment
unchanged and extends the remainder. -/
theorem splitDot_append_junk (l sg r j : List Nat) (hs : splitDot l = some (sg, r)) :
    splitDot (l ++ j) = some (sg, r ++ j) := by
  obtain ⟨e1, e2⟩ := splitDot_some l sg r hs
  subst e1
  rw [List.append_assoc]
  simpa using splitDot_append sg (r ++ j) e2

/-- When no key was supplied, a successful `jwt_verify_head` always
leaves the token with algorithm `NONE` (a non-`NONE` header algorithm is
scrubbed away). -/
theorem jwt_verify_head_nokey_alg (t : Jwt) (head : List Nat) (t' : Jwt)
    (hk : t.key = none) (h : jwt_verify_head t head = (.ok, t')) :
    t'.alg = .NONE := by
  cases hp : jwt_parse_seg head with
  | none => simp [jwt_verify_head, hp] at h
  | some hv =>
    simp only [jwt_verify_head, hp] at h
    repeat' split at h
    all_goals injection h with h1 h2
    all_goals try exact absurd h1 (by decide)
    all_goals subst h2
    all_goals simp_all [jwt_scrub_key]

/-- `jwt_split` ignores content after the second dot. -/
theorem jwt_split_append_junk (token j head body sig : List Nat)
    (hs : jwt_split token = some (head, body, sig)) :
    jwt_split (token ++ j) = some (head, body, sig ++ j) := by
  unfold jwt_split at hs ⊢
  cases hs1 : splitDot token with
  | none => rw [hs1] at hs; simp at hs
  | some p1 =>
    obtain ⟨h1, r1⟩ := p1
    rw [hs1] at hs
    cases hs2 : splitDot r1 with
    | none => simp [hs2] at hs
    | some p2 =>
      obtain ⟨b1, s1⟩ := p2
      simp [hs2] at hs
      obtain ⟨e1, e2, e3⟩ := hs
      subst e1; subst e2; subst e3
      simp [splitDot_append_junk token h1 r1 j hs1,
            splitDot_append_junk r1 b1 s1 j hs2]

/-- With a key present, a successful `jwt_verify_head` keeps the key
and implies a non-`NONE` algorithm. -/
theorem jwt_verify_head_keyed (t : Jwt) (head : List Nat) (t' : Jwt) (k : List Nat)
    (hk : t.key = some k) (h : jwt_verify_head t head = (.ok, t')) :
    t'.alg ≠ .NONE ∧ t'.key = t.key ∧ t'.key_len = t.key_len := by
  cases hp : jwt_parse_seg head with
  | none => simp [jwt_verify_head, hp] at h
  | some hv =>
    simp only [jwt_verify_head, hp] at h
    repeat' split at h
    all_goals injection h with h1 h2
    all_goals try exact absurd h1 (by decide)
    all_goals subst h2
    all_goals simp_all [jwt_scrub_key]

/-- C10: segmentation splits at the first two dots: `jwt_split` fails
exactly on inputs with fewer than two dots, and for any keyless decode
that succeeds (hence an `alg == NONE` token), appending arbitrary bytes
after the second dot (dots included) gives the same decoded token. -/
theorem jwt_decode_segmentation :
    (∀ token : List Nat, jwt_split token = none ↔ token.count 46 < 2) ∧
    (∀ (vf : VerifyFn) (token junk : List Nat) (t' : Jwt),
      jwt_decode vf token [] = (.ok, some t') →
      jwt_decode vf (token ++ junk) [] = (.ok, some t')) := by
  constructor
  · intro token
    unfold jwt_split
    cases hs1 : splitDot token with
    | none =>
      have h0 := (splitDot_none_iff token).mp hs1
      simp [h0]
    | some p1 =>
      obtain ⟨h1, r1⟩ := p1
      obtain ⟨e1, e2⟩ := splitDot_some token h1 r1 hs1
      cases hs2 : splitDot r1 with
      | none =>
        have h0 := (splitDot_none_iff r1).mp hs2
        subst e1
        simp [hs2, List.count_append, List.count_cons, e2, h0]
      | some p2 =>
        obtain ⟨b1, s1⟩ := p2
        obtain ⟨f1, f2⟩ := splitDot_some r1 b1 s1 hs2
        simp only [hs1, hs2]
        subst e1; subst f1
        simp [List.count_append, List.count_cons]
        omega
  · intro vf token junk t' h
    cases hsp : jwt_split token with
    | none => simp [jwt_decode, hsp] at h
    | some trip =>
      obtain ⟨head, body, sig⟩ := trip
      have hsp2 := jwt_split_append_junk token junk head body sig hsp
      rw [jwt_decode, hsp] at h
      rw [jwt_decode, hsp2]
      simp only [List.length_nil, ne_eq, not_true_eq_false, if_false,
        reduceIte] at h ⊢
      cases hvh : jwt_verify_head jwt_new head with
      | mk e t1 =>
        rw [hvh] at h
        cases e with
        | ok =>
          have halg : t1.alg = .NONE :=
            jwt_verify_head_nokey_alg jwt_new head t1 rfl hvh
          cases hpb : jwt_parse_seg body with
          | none => rw [hpb] at h; simp at h
          | some bv =>
            rw [hpb] at h
            simp only [halg, ne_eq, not_true_eq_false, if_false, reduceIte] at h ⊢
            exact h
        | einval => simp at h
        | enomem => simp at h
        | eexist => simp at h
        | enoent => simp at h

/-- C1 (amended): when a key is supplied, a successful decode implies a
non-`NONE` algorithm and that the crypto verify oracle accepted the
token's algorithm, the supplied key, and the signing input re-formed
from the original `H64 "." P64` bytes; decode fails whenever the
verifier rejects.  (With no key the algorithm is scrubbed to `NONE` and
verification is skipped, as the counterexample shows.) -/
theorem jwt_decode_keyed_verifies (vf : VerifyFn) (token key : List Nat)
    (hk : key ≠ []) (t' : Jwt) (h : jwt_decode vf token key = (.ok, some t')) :
    t'.alg ≠ .NONE ∧
    ∀ head body sig, jwt_split token = some (head, body, sig) →
      vf t'.alg (some key) (key.length : Int) (head ++ 46 :: body) sig = true := by
  cases hsp : jwt_split token with
  | none => simp [jwt_decode, hsp] at h
  | some trip =>
    obtain ⟨head, body, sig⟩ := trip
    rw [jwt_decode, hsp] at h
    have hlen : key.length ≠ 0 := by simpa using hk
    simp only [hlen, ne_eq, not_false_eq_true, if_true, reduceIte] at h
    cases hvh : jwt_verify_head
        { jwt_new with key := some key, key_len := (key.length : Int) } head with
    | mk e t1 =>
      rw [hvh] at h
      cases e with
      | ok =>
        obtain ⟨ha1, ha2, ha3⟩ := jwt_verify_head_keyed _ head t1 key rfl hvh
        cases hpb : jwt_parse_seg body with
        | none => rw [hpb] at h; simp at h
        | some bv =>
          rw [hpb] at h
          simp only [ha1, ne_eq, not_false_eq_true, if_true, reduceIte] at h
          cases hvf : vf t1.alg t1.key t1.key_len (head ++ 46 :: body) sig with
          | false => rw [hvf] at h; simp at h
          | true =>
            rw [hvf] at h
            simp only [if_true, reduceIte] at h
            injection h with h1 h2
            injection h2 with h3
            subst h3
            refine ⟨by simp [ha1], ?_⟩
            intro head' body' sig' hsp'
            obtain ⟨e1, e2, e3⟩ : head = head' ∧ body = body' ∧ sig = sig' := by
              simpa using hsp'
            subst e1; subst e2; subst e3
            simp only at ha2 ha3
            simpa [ha2, ha3] using hvf
      | einval => simp at h
      | enomem => simp at h
      | eexist => simp at h
      | enoent => simp at h

/-- C9 (amended): decoding a token whose header declares a known
non-`NONE` algorithm with no key does not fail for lack of a key:
provided the `typ` check passes and the payload parses, the decoder
scrubs the token, skips signature verification (the verify oracle is
arbitrary and unused), and returns a token whose `jwt_get_alg` reports
`NONE` rather than the header's algorithm. -/
theorem jwt_decode_nokey_scrubs (vf : VerifyFn) (token head body sig : List Nat)
    (hv bv : JVal)
    (hsp : jwt_split token = some (head, body, sig))
    (hph : jwt_parse_seg head = some hv)
    (halg1 : jwt_str_alg (get_js_string hv (ascii "alg")).1 ≠ .NONE)
    (halg2 : jwt_str_alg (get_js_string hv (ascii "alg")).1 ≠ .INVAL)
    (htyp : ∀ tv, (get_js_string hv (ascii "typ")).1 = some tv →
      ieq tv (ascii "JWT") = true)
    (hpb : jwt_parse_seg body = some bv) :
    jwt_decode vf token [] =
      (.ok, some { alg := .NONE, key := none, key_len := 0,
                   headers := hv, grants := bv }) ∧
    jwt_get_alg { alg := .NONE, key := none, key_len := 0,
                  headers := hv, grants := bv } = .NONE := by
  refine ⟨?_, rfl⟩
  rw [jwt_decode, hsp]
  have htE : (match (get_js_string hv (ascii "typ")).1 with
      | some tv => !ieq tv (ascii "JWT")
      | none => false) = false := by
    cases hty : (get_js_string hv (ascii "typ")).1 with
    | none => rfl
    | some tv => simp [htyp tv hty]
  have hvh : jwt_verify_head jwt_new head =
      (.ok, { alg := .NONE, key := none, key_len := 0,
              headers := hv, grants := jwt_new.grants }) := by
    simp only [jwt_verify_head, hph, halg1, halg2, htE, jwt_scrub_key]
    simp [jwt_new, halg1, halg2]
  simp only [List.length_nil, ne_eq, not_true_eq_false, if_false, reduceIte,
    hvh, hpb]

/-- A verify oracle that accepts everything. -/
def vfTrue : VerifyFn := fun _ _ _ _ _ => true

/-- A verify oracle that rejects everything. -/
def vfFalse : VerifyFn := fun _ _ _ _ _ => false

/-- C1 counterexample: the header of
`eyJhbGciOiJIUzI1NiJ9.e30.` declares `HS256`, the verify oracle rejects
every signature, yet the keyless decode succeeds: decode finished
without the (failing) verification making it fail. -/
theorem jwt_decode_nokey_skips_failing_verifier :
    jwt_parse_seg (ascii "eyJhbGciOiJIUzI1NiJ9") =
      some (.jobj [(ascii "alg", .jstr (ascii "HS256"))]) ∧
    jwt_str_alg (some (ascii "HS256")) = .HS256 ∧
    (jwt_decode vfFalse (ascii "eyJhbGciOiJIUzI1NiJ9.e30.") []).1 = .ok := by
  refine ⟨rfl, by decide, by decide⟩

/-- The decoded token of the C1 witness. -/
def tKeyedW : Jwt :=
  { alg := .HS256, key := some (ascii "k"), key_len := ((ascii "k").length : Int),
    headers := .jobj [(ascii "alg", .jstr (ascii "HS256"))], grants := .jobj [] }

/-- C1 witness: a keyed decode that succeeds under an accepting oracle,
with the oracle necessarily consulted on the original signing input. -/
theorem jwt_decode_keyed_verifies_witness :
    tKeyedW.alg ≠ .NONE ∧
    ∀ head body sig,
      jwt_split (ascii "eyJhbGciOiJIUzI1NiJ9.e30.x") = some (head, body, sig) →
      vfTrue tKeyedW.alg (some (ascii "k")) (((ascii "k").length : Nat) : Int)
        (head ++ 46 :: body) sig = true :=
  jwt_decode_keyed_verifies vfTrue (ascii "eyJhbGciOiJIUzI1NiJ9.e30.x") (ascii "k")
    (by decide) tKeyedW rfl

/-- C9 counterexample: a token whose header declares `HS256` but whose
payload segment is not valid base64/JSON makes the keyless decode fail,
so "decode with no key returns a successfully decoded token" does not
hold from the header condition alone. -/
theorem jwt_decode_nokey_bad_body_fails :
    jwt_parse_seg (ascii "eyJhbGciOiJIUzI1NiJ9") =
      some (.jobj [(ascii "alg", .jstr (ascii "HS256"))]) ∧
    jwt_decode vfTrue (ascii "eyJhbGciOiJIUzI1NiJ9.!.") [] = (.einval, none) := by
  refine ⟨rfl, rfl⟩

/-- C9 witness: keyless decode of the `HS256`-headed token
`eyJhbGciOiJIUzI1NiJ9.e30.` succeeds and reports algorithm `NONE`. -/
theorem jwt_decode_nokey_scrubs_witness :
    jwt_decode vfFalse (ascii "eyJhbGciOiJIUzI1NiJ9.e30.") [] =
      (.ok, some { alg := .NONE, key := none, key_len := 0,
                   headers := .jobj [(ascii "alg", .jstr (ascii "HS256"))],
                   grants := .jobj [] }) ∧
    jwt_get_alg { alg := .NONE, key := none, key_len := 0,
                  headers := .jobj [(ascii "alg", .jstr (ascii "HS256"))],
                  grants := .jobj [] } = .NONE :=
  jwt_decode_nokey_scrubs vfFalse (ascii "eyJhbGciOiJIUzI1NiJ9.e30.")
    (ascii "eyJhbGciOiJIUzI1NiJ9") (ascii "e30") []
    (.jobj [(ascii "alg", .jstr (ascii "HS256"))]) (.jobj [])
    rfl rfl (by decide) (by decide) (fun tv h => nomatch h) rfl

/-- The decoded token of the C10 witness. -/
def tNoneW : Jwt :=
  { alg := .NONE, key := none, key_len := 0,
    headers := .jobj [(ascii "alg", .jstr (ascii "none"))], grants := .jobj [] }

/-- C10 witness: junk (with extra dots) after the second dot of a `NONE`
token is ignored, and a dot-free string fails segmentation. -/
theorem jwt_decode_segmentation_witness :
    jwt_decode vfFalse (ascii "eyJhbGciOiJub25lIn0.e30." ++ ascii "junk.with.dots") []
      = (.ok, some tNoneW) ∧
    (jwt_split (ascii "nodots") = none ↔ (ascii "nodots").count 46 < 2) :=
  ⟨jwt_decode_segmentation.2 vfFalse (ascii "eyJhbGciOiJub25lIn0.e30.")
      (ascii "junk.with.dots") tNoneW rfl,
   jwt_decode_segmentation.1 (ascii "nodots")⟩

theorem natToDecGo_spec (n : Nat) : ∀ f acc, n < f →
    natToDecGo f n acc = natToDec n ++ acc := by
  induction n using Nat.strong_induction_on with
  | _ n ih =>
    intro f acc hf
    match f with
    | f' + 1 =>
      by_cases h : n < 10
      · simp [natToDecGo, natToDec, h]
      · have hd : n / 10 < n := Nat.div_lt_self (by omega) (by omega)
        have h1 : n / 10 < f' := by
          have h10 : 10 ≤ n := by omega
          have := Nat.div_le_self n 10
          omega
        rw [natToDecGo, if_neg h]
        rw [ih (n / 10) hd f' _ h1]
        have h2 : natToDec n = natToDec (n / 10) ++ [48 + n % 10] := by
          show natToDecGo (n + 1) n [] = _
          rw [natToDecGo, if_neg h]
          rw [ih (n / 10) hd n _ (by omega)]
        rw [h2, List.append_assoc]
        rfl

theorem natToDec_unfold (n : Nat) :
    natToDec n = if n < 10 then [48 + n] else natToDec (n / 10) ++ [48 + n % 10] := by
  by_cases h : n < 10
  · simp [natToDec, natToDecGo, h]
  · have hd : n / 10 < n := Nat.div_lt_self (by omega) (by omega)
    rw [if_neg h]
    show natToDecGo (n + 1) n [] = _
    rw [natToDecGo, if_neg h, natToDecGo_spec (n / 10) n [48 + n % 10] (by omega)]

theorem natToDec_digits (n : Nat) : ∀ b ∈ natToDec n, 48 ≤ b ∧ b ≤ 57 := by
  induction n using Nat.strong_induction_on with
  | _ n ih =>
    rw [natToDec_unfold]
    by_cases h : n < 10
    · simp [h]; omega
    · have hd : n / 10 < n := Nat.div_lt_self (by omega) (by omega)
      simp only [h, if_false, reduceIte]
      intro b hb
      rcases List.mem_append.mp hb with h1 | h1
      · exact ih (n / 10) hd b h1
      · simp at h1
        have : n % 10 < 10 := Nat.mod_lt _ (by omega)
        omega

theorem natToDec_ne_nil (n : Nat) : natToDec n ≠ [] := by
  rw [natToDec_unfold]
  by_cases h : n < 10 <;> simp [h]

theorem digVal_append_digit (l : List Nat) (d : Nat) :
    digVal (l ++ [d]) = 10 * digVal l + (d - 48) := by
  simp [digVal, List.foldl_append]
  omega

theorem digVal_natToDec (n : Nat) : digVal (natToDec n) = n := by
  induction n using Nat.strong_induction_on with
  | _ n ih =>
    rw [natToDec_unfold]
    by_cases h : n < 10
    · simp [h, digVal]
    · have hd : n / 10 < n := Nat.div_lt_self (by omega) (by omega)
      rw [if_neg h, digVal_append_digit, ih (n / 10) hd]
      omega

theorem takeWhile_append_all {p : Nat → Bool} (ds rest : List Nat)
    (h : ∀ b ∈ ds, p b = true)
    (h2 : ∀ b r', rest = b :: r' → p b = false) :
    (ds ++ rest).takeWhile p = ds ∧ (ds ++ rest).dropWhile p = rest := by
  induction ds with
  | nil =>
    simp only [List.nil_append]
    cases rest with
    | nil => simp
    | cons b r => simp_all [List.takeWhile, List.dropWhile, h2 b r rfl]
  | cons d ds' ih =>
    have hd : p d = true := h d (by simp)
    have hrec := ih (fun b hb => h b (by simp [hb]))
    simp [List.takeWhile, List.dropWhile, hd, hrec.1, hrec.2]

theorem hexVal_hexDig (x : Nat) (h : x < 16) : hexVal (hexDig x) = some x := by
  interval_cases x <;> decide

theorem pStr_escapeJ (s rest : List Nat) :
    pStr (escapeJ s ++ 34 :: rest) = some (s, rest) := by
  induction s with
  | nil =>
    show pStr (34 :: rest) = some ([], rest)
    rw [pStr.eq_def]
    simp
  | cons b r ih =>
    by_cases h34 : b = 34
    · subst h34
      show pStr (92 :: 34 :: (escapeJ r ++ 34 :: rest)) = _
      rw [pStr.eq_def]
      simp [esc1, ih]
    · by_cases h92 : b = 92
      · subst h92
        show pStr (92 :: 92 :: (escapeJ r ++ 34 :: rest)) = _
        rw [pStr.eq_def]
        simp [esc1, ih]
      · by_cases hc : b < 32
        · have e1 : hexVal (hexDig (b / 16)) = some (b / 16) :=
            hexVal_hexDig _ (by omega)
          have e2 : hexVal (hexDig (b % 16)) = some (b % 16) :=
            hexVal_hexDig _ (by omega)
          have hb : b / 16 * 16 + b % 16 = b := by omega
          have hesc : escapeJ (b :: r) ++ 34 :: rest =
              92 :: 117 :: 48 :: 48 :: hexDig (b / 16) :: hexDig (b % 16) ::
                (escapeJ r ++ 34 :: rest) := by
            simp [escapeJ, h34, h92, hc]
          have e0 : hexVal 48 = some 0 := by decide
          rw [hesc, pStr.eq_def]
          simp [e0, e1, e2, ih, hb]
        · have hesc : escapeJ (b :: r) ++ 34 :: rest =
              b :: (escapeJ r ++ 34 :: rest) := by
            simp [escapeJ, h34, h92, hc]
          rw [hesc, pStr.eq_def]
          simp [h34, h92, hc, ih]

mutual

/-- Well-formedness of a JSON value as the library can hold it: string
and key bytes are bytes (`< 256`), and object keys are unique at every
level. -/
def wfV : JVal → Bool
  | .jnull => true
  | .jbool _ => true
  | .jint _ => true
  | .jstr s => s.all (fun b => b < 256)
  | .jarr xs => wfL xs
  | .jobj xs => decide ((xs.map Prod.fst).Nodup) && wfO xs

/-- `wfV` on array elements. -/
def wfL : List JVal → Bool
  | [] => true
  | v :: r => wfV v && wfL r

/-- `wfV` on object entries. -/
def wfO : List (List Nat × JVal) → Bool
  | [] => true
  | (k, v) :: r => k.all (fun b => b < 256) && wfV v && wfO r

end

mutual

/-- Fuel sufficient for `parseVal` to parse the dump of a value. -/
def fuelV : JVal → Nat
  | .jarr xs => 1 + fuelL xs
  | .jobj xs => 1 + fuelM xs
  | _ => 1

/-- Fuel sufficient for `parseItems` on dumped elements. -/
def fuelL : List JVal → Nat
  | [] => 1
  | v :: r => 1 + fuelV v + (match r with | [] => 0 | _ => fuelL r)

/-- Fuel sufficient for `parseMembers` on dumped entries. -/
def fuelM : List (List Nat × JVal) → Nat
  | [] => 1
  | (_, v) :: r => 1 + fuelV v + (match r with | [] => 0 | _ => fuelM r)

end

/-- The bytes that may legally follow a dumped value: end of input or a
byte that neither extends a digit span nor turns it into a real. -/
def sepOkB : List Nat → Bool
  | [] => true
  | b :: _ => !(isDigitB b || b == 46 || b == 101 || b == 69)

theorem fuelV_pos (v : JVal) : 1 ≤ fuelV v := by
  cases v <;> simp [fuelV]

theorem fuelL_pos (xs : List JVal) : 1 ≤ fuelL xs := by
  cases xs <;> simp [fuelL]
  omega

theorem fuelM_pos (xs : List (List Nat × JVal)) : 1 ≤ fuelM xs := by
  cases xs with
  | nil => simp [fuelM]
  | cons p r => obtain ⟨k, v⟩ := p; simp [fuelM]; omega

theorem skipWs_cons (b : Nat) (l : List Nat) (h : isWs b = false) :
    skipWs (b :: l) = b :: l := by
  simp [skipWs, h]

theorem isWs_digit_false (b : Nat) (h : 48 ≤ b ∧ b ≤ 57) : isWs b = false := by
  simp [isWs]
  omega

/-- Every dump starts with a byte that is not whitespace and not one of
the structural closers/separators. -/
theorem dumpV_head (v : JVal) : ∃ b l', dumpV v = b :: l' ∧ isWs b = false ∧
    b ≠ 93 ∧ b ≠ 125 ∧ b ≠ 44 := by
  cases v with
  | jnull => exact ⟨110, _, rfl, by decide, by decide, by decide, by decide⟩
  | jbool b =>
    cases b
    · exact ⟨102, _, rfl, by decide, by decide, by decide, by decide⟩
    · exact ⟨116, _, rfl, by decide, by decide, by decide, by decide⟩
  | jint n =>
    by_cases hn : n < 0
    · refine ⟨45, natToDec (-n).toNat, ?_, by decide, by decide, by decide, by decide⟩
      simp [dumpV, intDump, hn]
    · rcases hD : natToDec n.toNat with _ | ⟨d, ds⟩
      · exact absurd hD (natToDec_ne_nil _)
      · have hd := natToDec_digits n.toNat d (by rw [hD]; simp)
        refine ⟨d, ds, ?_, isWs_digit_false d hd, by omega, by omega, by omega⟩
        simp [dumpV, intDump, hn, hD]
  | jstr s => exact ⟨34, _, rfl, by decide, by decide, by decide, by decide⟩
  | jarr xs => exact ⟨91, _, rfl, by decide, by decide, by decide, by decide⟩
  | jobj xs => exact ⟨123, _, rfl, by decide, by decide, by decide, by decide⟩

theorem sepOk_numEnd (rest : List Nat) (h : sepOkB rest = true) :
    numEndOk rest = true := by
  cases rest with
  | nil => simp [numEndOk]
  | cons b r =>
    simp [sepOkB] at h
    simp [numEndOk, h]

theorem sepOk_digit (rest : List Nat) (h : sepOkB rest = true) :
    ∀ b r', rest = b :: r' → isDigitB b = false := by
  intro b r' he
  subst he
  simp [sepOkB] at h
  simp [h]

/-- The joint printer/parser round trip, by induction on fuel: parsing
the in-order dump of a value (or of element/member lists) returns it
unchanged. -/
theorem parse_rt : ∀ f : Nat,
    (∀ v rest, fuelV v ≤ f → sepOkB rest = true →
      parseVal f (dumpV v ++ rest) = some (v, rest)) ∧
    (∀ xs rest first, fuelL xs ≤ f → (first = true ∨ xs ≠ []) →
      parseItems f first (dumpL xs ++ 93 :: rest) = some (xs, rest)) ∧
    (∀ xs rest first, fuelM xs ≤ f → (first = true ∨ xs ≠ []) →
      parseMembers f first (dumpO xs ++ 125 :: rest) = some (xs, rest)) := by
  intro f
  induction f with
  | zero =>
    refine ⟨fun v rest hf _ => absurd hf (by have := fuelV_pos v; omega),
            fun xs rest first hf _ => absurd hf (by have := fuelL_pos xs; omega),
            fun xs rest first hf _ => absurd hf (by have := fuelM_pos xs; omega)⟩
  | succ f ih =>
    obtain ⟨ihV, ihL, ihM⟩ := ih
    refine ⟨?_, ?_, ?_⟩
    · -- parseVal
      intro v rest hf hsep
      cases v with
      | jnull =>
        show parseVal (f + 1) (110 :: 117 :: 108 :: 108 :: rest) = _
        simp only [parseVal]
        rw [skipWs_cons 110 _ (by decide)]
        norm_num
      | jbool b =>
        cases b
        · show parseVal (f + 1) (102 :: 97 :: 108 :: 115 :: 101 :: rest) = _
          simp only [parseVal]
          rw [skipWs_cons 102 _ (by decide)]
          norm_num
        · show parseVal (f + 1) (116 :: 114 :: 117 :: 101 :: rest) = _
          simp only [parseVal]
          rw [skipWs_cons 116 _ (by decide)]
          norm_num
      | jstr s =>
        have heq : dumpV (.jstr s) ++ rest = 34 :: (escapeJ s ++ 34 :: rest) := by
          simp [dumpV]
        rw [heq]
        simp only [parseVal]
        rw [skipWs_cons 34 _ (by decide)]
        norm_num [pStr_escapeJ]
      | jint n =>
        have hend := sepOk_numEnd rest hsep
        have hrest := sepOk_digit rest hsep
        by_cases hn : n < 0
        · have heq : dumpV (.jint n) ++ rest = 45 :: (natToDec (-n).toNat ++ rest) := by
            simp [dumpV, intDump, hn]
          rcases hD : natToDec (-n).toNat with _ | ⟨d, ds⟩
          · exact absurd hD (natToDec_ne_nil _)
          have hsp := takeWhile_append_all (p := isDigitB) (natToDec (-n).toNat) rest
            (fun b hb => by have := natToDec_digits (-n).toNat b hb; simp [isDigitB]; omega)
            hrest
          have hsp1 : (d :: (ds ++ rest)).takeWhile isDigitB = d :: ds := by
            have := hsp.1; rw [hD] at this; simpa using this
          have hsp2 : (d :: (ds ++ rest)).dropWhile isDigitB = rest := by
            have := hsp.2; rw [hD] at this; simpa using this
          rw [heq, hD]
          show parseVal (f + 1) (45 :: (d :: (ds ++ rest))) = _
          simp only [parseVal]
          rw [skipWs_cons 45 _ (by decide)]
          norm_num [digSpan, hsp1, hsp2]
          rw [← hD, digVal_natToDec]
          exact ⟨hend, by omega⟩
        · have heq : dumpV (.jint n) ++ rest = natToDec n.toNat ++ rest := by
            simp [dumpV, intDump, hn]
          rcases hD : natToDec n.toNat with _ | ⟨d, ds⟩
          · exact absurd hD (natToDec_ne_nil _)
          have hd := natToDec_digits n.toNat d (by rw [hD]; simp)
          have hsp := takeWhile_append_all (p := isDigitB) (natToDec n.toNat) rest
            (fun b hb => by have := natToDec_digits n.toNat b hb; simp [isDigitB]; omega)
            hrest
          have hsp1 : (d :: (ds ++ rest)).takeWhile isDigitB = d :: ds := by
            have := hsp.1; rw [hD] at this; simpa using this
          have hsp2 : (d :: (ds ++ rest)).dropWhile isDigitB = rest := by
            have := hsp.2; rw [hD] at this; simpa using this
          rw [heq, hD]
          show parseVal (f + 1) (d :: (ds ++ rest)) = _
          simp only [parseVal]
          rw [skipWs_cons d _ (isWs_digit_false d hd)]
          have h34 : ¬ d = 34 := by omega
          have h91 : ¬ d = 91 := by omega
          have h123 : ¬ d = 123 := by omega
          have h110 : ¬ d = 110 := by omega
          have h116 : ¬ d = 116 := by omega
          have h102 : ¬ d = 102 := by omega
          have h45 : ¬ d = 45 := by omega
          have hdig : isDigitB d = true := by simp [isDigitB]; omega
          simp only [h34, h91, h123, h110, h116, h102, h45, hdig, if_false, if_true,
            reduceIte]
          norm_num [digSpan, hsp1, hsp2]
          rw [← hD, digVal_natToDec]
          exact ⟨hend, by omega⟩
      | jarr xs =>
        have heq : dumpV (.jarr xs) ++ rest = 91 :: (dumpL xs ++ 93 :: rest) := by
          simp [dumpV]
        rw [heq]
        simp only [parseVal]
        rw [skipWs_cons 91 _ (by decide)]
        norm_num
        rw [ihL xs rest true (by simp [fuelV] at hf; omega) (Or.inl rfl)]
      | jobj xs =>
        have heq : dumpV (.jobj xs) ++ rest = 123 :: (dumpO xs ++ 125 :: rest) := by
          simp [dumpV]
        rw [heq]
        simp only [parseVal]
        rw [skipWs_cons 123 _ (by decide)]
        norm_num
        rw [ihM xs rest true (by simp [fuelV] at hf; omega) (Or.inl rfl)]
    · -- parseItems
      intro xs rest first hf hfirst
      cases xs with
      | nil =>
        have hfi : first = true := by rcases hfirst with h | h; exact h; simp at h
        subst hfi
        show parseItems (f + 1) true (93 :: rest) = _
        simp only [parseItems]
        rw [skipWs_cons 93 _ (by decide)]
        norm_num
      | cons x xs' =>
        obtain ⟨b, l', hbx, hws, h93, h125, h44⟩ := dumpV_head x
        cases xs' with
        | nil =>
          have heq : dumpL [x] ++ 93 :: rest = b :: (l' ++ 93 :: rest) := by
            simp [dumpL, hbx]
          have hfv : fuelV x ≤ f := by
            simp [fuelL] at hf; omega
          have hpv : parseVal f (b :: (l' ++ 93 :: rest)) = some (x, 93 :: rest) := by
            have := ihV x (93 :: rest) hfv (by simp [sepOkB, isDigitB])
            rw [hbx] at this
            simpa using this
          rw [heq]
          simp only [parseItems]
          rw [skipWs_cons b _ hws]
          simp only [h93, if_false, reduceIte, hpv]
          rw [skipWs_cons 93 _ (by decide)]
          norm_num
        | cons y ys =>
          have heq : dumpL (x :: y :: ys) ++ 93 :: rest =
              b :: (l' ++ 44 :: (dumpL (y :: ys) ++ 93 :: rest)) := by
            simp [dumpL, hbx]
          have hfv : fuelV x ≤ f := by
            simp [fuelL] at hf; omega
          have hfL : fuelL (y :: ys) ≤ f := by
            simp [fuelL] at hf ⊢
            omega
          have hpv : parseVal f (b :: (l' ++ 44 :: (dumpL (y :: ys) ++ 93 :: rest))) =
              some (x, 44 :: (dumpL (y :: ys) ++ 93 :: rest)) := by
            have := ihV x (44 :: (dumpL (y :: ys) ++ 93 :: rest)) hfv
              (by simp [sepOkB, isDigitB])
            rw [hbx] at this
            simpa using this
          rw [heq]
          simp only [parseItems]
          rw [skipWs_cons b _ hws]
          simp only [h93, if_false, reduceIte, hpv]
          rw [skipWs_cons 44 _ (by decide)]
          norm_num
          rw [ihL (y :: ys) rest false hfL (Or.inr (by simp))]
    · -- parseMembers
      intro xs rest first hf hfirst
      cases xs with
      | nil =>
        have hfi : first = true := by rcases hfirst with h | h; exact h; simp at h
        subst hfi
        show parseMembers (f + 1) true (125 :: rest) = _
        simp only [parseMembers]
        rw [skipWs_cons 125 _ (by decide)]
        norm_num
      | cons p xs' =>
        obtain ⟨k, v⟩ := p
        obtain ⟨b, l', hbx, hws, h93, h125, h44⟩ := dumpV_head v
        cases xs' with
        | nil =>
          have heq : dumpO [(k, v)] ++ 125 :: rest =
              34 :: (escapeJ k ++ 34 :: (58 :: (dumpV v ++ 125 :: rest))) := by
            simp [dumpO]
          have hfv : fuelV v ≤ f := by
            simp [fuelM] at hf; omega
          have hpv : parseVal f (dumpV v ++ 125 :: rest) = some (v, 125 :: rest) :=
            ihV v (125 :: rest) hfv (by simp [sepOkB, isDigitB])
          rw [heq]
          simp only [parseMembers]
          rw [skipWs_cons 34 _ (by decide)]
          norm_num [pStr_escapeJ]
          rw [skipWs_cons 58 _ (by decide)]
          norm_num [hpv]
          rw [skipWs_cons 125 _ (by decide)]
          norm_num
        | cons q qs =>
          have heq : dumpO ((k, v) :: q :: qs) ++ 125 :: rest =
              34 :: (escapeJ k ++ 34 :: (58 :: (dumpV v ++ 44 ::
                (dumpO (q :: qs) ++ 125 :: rest)))) := by
            simp [dumpO]
          have hfv : fuelV v ≤ f := by
            simp [fuelM] at hf; omega
          have hfM : fuelM (q :: qs) ≤ f := by
            obtain ⟨k2, v2⟩ := q
            simp [fuelM] at hf ⊢
            omega
          have hpv : parseVal f (dumpV v ++ 44 :: (dumpO (q :: qs) ++ 125 :: rest)) =
              some (v, 44 :: (dumpO (q :: qs) ++ 125 :: rest)) :=
            ihV v _ hfv (by simp [sepOkB, isDigitB])
          rw [heq]
          simp only [parseMembers]
          rw [skipWs_cons 34 _ (by decide)]
          norm_num [pStr_escapeJ]
          rw [skipWs_cons 58 _ (by decide)]
          norm_num [hpv]
          rw [skipWs_cons 44 _ (by decide)]
          norm_num
          rw [ihM (q :: qs) rest false hfM (Or.inr (by simp))]

mutual

/-- The parse fuel of a value is at most its dump length. -/
theorem fuelV_le : ∀ v : JVal, fuelV v ≤ (dumpV v).length
  | .jnull => by simp [fuelV, dumpV]
  | .jbool b => by cases b <;> simp [fuelV, dumpV]
  | .jint n => by
    by_cases hn : n < 0
    · simp [fuelV, dumpV, intDump, hn]
    · rcases hD : natToDec n.toNat with _ | ⟨d, ds⟩
      · exact absurd hD (natToDec_ne_nil _)
      · simp [fuelV, dumpV, intDump, hn, hD]
  | .jstr s => by simp [fuelV, dumpV]
  | .jarr xs => by
    have := fuelL_le xs
    simp [fuelV, dumpV]
    omega
  | .jobj xs => by
    have := fuelM_le xs
    simp [fuelV, dumpV]
    omega

/-- The items fuel is at most the dumped-elements length plus one. -/
theorem fuelL_le : ∀ xs : List JVal, fuelL xs ≤ (dumpL xs).length + 1
  | [] => by simp [fuelL, dumpL]
  | [v] => by
    have := fuelV_le v
    simp [fuelL, dumpL]
    omega
  | v :: y :: ys => by
    have h1 := fuelV_le v
    have h2 := fuelL_le (y :: ys)
    simp [fuelL, dumpL]
    simp [fuelL] at h2
    omega

/-- The members fuel is at most the dumped-entries length plus one. -/
theorem fuelM_le : ∀ xs : List (List Nat × JVal), fuelM xs ≤ (dumpO xs).length + 1
  | [] => by simp [fuelM, dumpO]
  | [(k, v)] => by
    have := fuelV_le v
    simp [fuelM, dumpO]
    omega
  | (k, v) :: q :: qs => by
    have h1 := fuelV_le v
    have h2 := fuelM_le (q :: qs)
    obtain ⟨k2, v2⟩ := q
    simp [fuelM, dumpO]
    simp [fuelM] at h2
    omega

end

/-- Parsing the in-order dump of an object value returns it exactly. -/
theorem jsonLoads_dumpV_obj (ys : List (List Nat × JVal)) :
    jsonLoads (dumpV (.jobj ys)) = some (.jobj ys) := by
  have hfm : fuelM ys ≤ (dumpV (JVal.jobj ys)).length + 1 := by
    have := fuelM_le ys
    simp [dumpV]
    omega
  have h := (parse_rt ((dumpV (JVal.jobj ys)).length + 1)).2.2 ys [] true hfm
    (Or.inl rfl)
  have heq : dumpV (JVal.jobj ys) = 123 :: (dumpO ys ++ 125 :: []) := by
    simp [dumpV]
  rw [jsonLoads, heq]
  rw [skipWs_cons 123 _ (by decide)]
  have hlen : (123 :: (dumpO ys ++ 125 :: [])).length = (dumpV (JVal.jobj ys)).length := by
    rw [heq]
  simp only [hlen, h]
  simp [skipWs]

/-- `json_loads` of the sorted compact `json_dumps` of an object is the
canonical (recursively key-sorted) form of that object. -/
theorem jsonLoads_jsonDumps_obj (xs : List (List Nat × JVal)) :
    jsonLoads (jsonDumps (.jobj xs)) = some (canon (.jobj xs)) := by
  show jsonLoads (dumpV (canon (.jobj xs))) = _
  rw [show canon (.jobj xs) = .jobj (sortK (canonO xs)) from rfl]
  exact jsonLoads_dumpV_obj _

theorem b64v_b64char : ∀ n, n < 64 → b64v (b64char n) = n := by decide

theorem b64char_ne61 : ∀ n, n < 64 → b64char n ≠ 61 := by decide

theorem b64char_tr : ∀ n, n < 64 →
    (if (if b64char n = 43 then 45 else if b64char n = 47 then 95 else b64char n)
        = 45 then 43
     else if (if b64char n = 43 then 45 else if b64char n = 47 then 95 else b64char n)
        = 95 then 47
     else (if b64char n = 43 then 45 else if b64char n = 47 then 95 else b64char n))
      = b64char n := by decide

theorem uriEnc_cons_ne (c : Nat) (r : List Nat) (h : ¬ c = 61) :
    uriEnc (c :: r) = (if c = 43 then 45 else if c = 47 then 95 else c) :: uriEnc r := by
  simp [uriEnc, h]

theorem padEq_cons4 (a b c d : Nat) (l : List Nat) :
    padEq (a :: b :: c :: d :: l) = a :: b :: c :: d :: padEq l := by
  simp only [padEq, List.length_cons]
  have hm : (l.length + 1 + 1 + 1 + 1) % 4 = l.length % 4 := by omega
  rw [hm]
  by_cases h : 4 - l.length % 4 < 4 <;> simp [h]

/-- One encoded character survives the URL-safe translation and back,
and carries its 6-bit value. -/
theorem b64_char_stage (n : Nat) (h : n < 64) (l : List Nat) :
    uriToStd ((if b64char n = 43 then 45 else if b64char n = 47 then 95
               else b64char n) :: l) = b64char n :: uriToStd l := by
  simp only [uriToStd, List.map_cons]
  rw [b64char_tr n h]

/-- The base64url pipeline round trip: `jwt_b64_decode` recovers the
bytes of `jwt_Base64encode` after URL-safing. -/
theorem b64_rt (X : List Nat) (hX : ∀ b ∈ X, b < 256) :
    jwt_b64_dec (uriEnc (b64enc X)) = X := by
  induction X using b64enc.induct with
  | case1 => decide
  | case2 a =>
    have ha : a < 256 := hX a (by simp)
    have h1 : a / 4 < 64 := by omega
    have h2 : a % 4 * 16 < 64 := by omega
    rw [show b64enc [a] = b64char (a / 4) :: b64char (a % 4 * 16) :: 61 :: 61 :: []
        from rfl]
    rw [uriEnc_cons_ne _ _ (b64char_ne61 _ h1), uriEnc_cons_ne _ _ (b64char_ne61 _ h2)]
    rw [show uriEnc (61 :: 61 :: []) = [] from rfl]
    unfold jwt_b64_dec
    rw [show uriToStd ((if b64char (a / 4) = 43 then 45 else if b64char (a / 4) = 47
        then 95 else b64char (a / 4)) :: (if b64char (a % 4 * 16) = 43 then 45 else
        if b64char (a % 4 * 16) = 47 then 95 else b64char (a % 4 * 16)) :: []) =
        b64char (a / 4) :: b64char (a % 4 * 16) :: [] from by
      rw [b64_char_stage _ h1, b64_char_stage _ h2]; rfl]
    rw [show padEq (b64char (a / 4) :: b64char (a % 4 * 16) :: []) =
        b64char (a / 4) :: b64char (a % 4 * 16) :: 61 :: 61 :: [] from by
      simp [padEq]]
    have hv1 : b64v (b64char (a / 4)) ≤ 63 := by rw [b64v_b64char _ h1]; omega
    have hv2 : b64v (b64char (a % 4 * 16)) ≤ 63 := by rw [b64v_b64char _ h2]; omega
    rw [show List.takeWhile (fun c => b64v c ≤ 63)
        (b64char (a / 4) :: b64char (a % 4 * 16) :: 61 :: 61 :: []) =
        b64char (a / 4) :: b64char (a % 4 * 16) :: [] from by
      simp [List.takeWhile, hv1, hv2]; decide]
    simp only [List.map_cons, List.map_nil, b64v_b64char _ h1, b64v_b64char _ h2]
    show b64dec6 [a / 4, a % 4 * 16] = [a]
    simp [b64dec6]
    omega
  | case3 a b =>
    have ha : a < 256 := hX a (by simp)
    have hb : b < 256 := hX b (by simp)
    have h1 : a / 4 < 64 := by omega
    have h2 : a % 4 * 16 + b / 16 < 64 := by omega
    have h3 : b % 16 * 4 < 64 := by omega
    rw [show b64enc [a, b] = b64char (a / 4) :: b64char (a % 4 * 16 + b / 16) ::
        b64char (b % 16 * 4) :: 61 :: [] from rfl]
    rw [uriEnc_cons_ne _ _ (b64char_ne61 _ h1), uriEnc_cons_ne _ _ (b64char_ne61 _ h2),
        uriEnc_cons_ne _ _ (b64char_ne61 _ h3)]
    rw [show uriEnc (61 :: []) = [] from rfl]
    unfold jwt_b64_dec
    rw [show uriToStd _ = b64char (a / 4) :: b64char (a % 4 * 16 + b / 16) ::
        b64char (b % 16 * 4) :: [] from by
      rw [b64_char_stage _ h1, b64_char_stage _ h2, b64_char_stage _ h3]; rfl]
    rw [show padEq (b64char (a / 4) :: b64char (a % 4 * 16 + b / 16) ::
        b64char (b % 16 * 4) :: []) = b64char (a / 4) ::
        b64char (a % 4 * 16 + b / 16) :: b64char (b % 16 * 4) :: 61 :: [] from by
      simp [padEq]]
    have hv1 : b64v (b64char (a / 4)) ≤ 63 := by rw [b64v_b64char _ h1]; omega
    have hv2 : b64v (b64char (a % 4 * 16 + b / 16)) ≤ 63 := by
      rw [b64v_b64char _ h2]; omega
    have hv3 : b64v (b64char (b % 16 * 4)) ≤ 63 := by rw [b64v_b64char _ h3]; omega
    rw [show List.takeWhile (fun c => b64v c ≤ 63) (b64char (a / 4) ::
        b64char (a % 4 * 16 + b / 16) :: b64char (b % 16 * 4) :: 61 :: []) =
        b64char (a / 4) :: b64char (a % 4 * 16 + b / 16) :: b64char (b % 16 * 4) :: []
        from by simp [List.takeWhile, hv1, hv2, hv3]; decide]
    simp only [List.map_cons, List.map_nil, b64v_b64char _ h1, b64v_b64char _ h2,
      b64v_b64char _ h3]
    show b64dec6 [a / 4, a % 4 * 16 + b / 16, b % 16 * 4] = [a, b]
    simp [b64dec6]
    constructor <;> omega
  | case4 a b c r ih =>
    have ha : a < 256 := hX a (by simp)
    have hb : b < 256 := hX b (by simp)
    have hc : c < 256 := hX c (by simp)
    have hr : ∀ x ∈ r, x < 256 := fun x hx => hX x (by simp [hx])
    have h1 : a / 4 < 64 := by omega
    have h2 : a % 4 * 16 + b / 16 < 64 := by omega
    have h3 : b % 16 * 4 + c / 64 < 64 := by omega
    have h4 : c % 64 < 64 := by omega
    have hih := ih hr
    rw [show b64enc (a :: b :: c :: r) = b64char (a / 4) ::
        b64char (a % 4 * 16 + b / 16) :: b64char (b % 16 * 4 + c / 64) ::
        b64char (c % 64) :: b64enc r from rfl]
    rw [uriEnc_cons_ne _ _ (b64char_ne61 _ h1), uriEnc_cons_ne _ _ (b64char_ne61 _ h2),
        uriEnc_cons_ne _ _ (b64char_ne61 _ h3), uriEnc_cons_ne _ _ (b64char_ne61 _ h4)]
    unfold jwt_b64_dec at hih ⊢
    rw [show ∀ l, uriToStd ((if b64char (a / 4) = 43 then 45 else if b64char (a / 4)
        = 47 then 95 else b64char (a / 4)) :: (if b64char (a % 4 * 16 + b / 16) = 43
        then 45 else if b64char (a % 4 * 16 + b / 16) = 47 then 95 else
        b64char (a % 4 * 16 + b / 16)) :: (if b64char (b % 16 * 4 + c / 64) = 43 then
        45 else if b64char (b % 16 * 4 + c / 64) = 47 then 95 else
        b64char (b % 16 * 4 + c / 64)) :: (if b64char (c % 64) = 43 then 45 else
        if b64char (c % 64) = 47 then 95 else b64char (c % 64)) :: l) =
        b64char (a / 4) :: b64char (a % 4 * 16 + b / 16) ::
        b64char (b % 16 * 4 + c / 64) :: b64char (c % 64) :: uriToStd l from by
      intro l
      rw [b64_char_stage _ h1, b64_char_stage _ h2, b64_char_stage _ h3,
          b64_char_stage _ h4]]
    rw [padEq_cons4]
    have hv1 : b64v (b64char (a / 4)) ≤ 63 := by rw [b64v_b64char _ h1]; omega
    have hv2 : b64v (b64char (a % 4 * 16 + b / 16)) ≤ 63 := by
      rw [b64v_b64char _ h2]; omega
    have hv3 : b64v (b64char (b % 16 * 4 + c / 64)) ≤ 63 := by
      rw [b64v_b64char _ h3]; omega
    have hv4 : b64v (b64char (c % 64)) ≤ 63 := by rw [b64v_b64char _ h4]; omega
    rw [show ∀ l, List.takeWhile (fun ch => b64v ch ≤ 63) (b64char (a / 4) ::
        b64char (a % 4 * 16 + b / 16) :: b64char (b % 16 * 4 + c / 64) ::
        b64char (c % 64) :: l) = b64char (a / 4) :: b64char (a % 4 * 16 + b / 16) ::
        b64char (b % 16 * 4 + c / 64) :: b64char (c % 64) ::
        List.takeWhile (fun ch => b64v ch ≤ 63) l from by
      intro l
      simp [List.takeWhile, hv1, hv2, hv3, hv4]]
    simp only [List.map_cons, b64v_b64char _ h1, b64v_b64char _ h2, b64v_b64char _ h3,
      b64v_b64char _ h4]
    rw [show ∀ v1 v2 v3 v4 m, b64dec6 (v1 :: v2 :: v3 :: v4 :: m) =
        (v1 * 4 + v2 / 16) :: (v2 % 16 * 16 + v3 / 4) :: (v3 % 4 * 64 + v4 % 64) ::
        b64dec6 m from fun _ _ _ _ _ => rfl]
    rw [hih]
    have e1 : a / 4 * 4 + (a % 4 * 16 + b / 16) / 16 = a := by omega
    have e2 : (a % 4 * 16 + b / 16) % 16 * 16 + (b % 16 * 4 + c / 64) / 4 = b := by
      omega
    have e3 : (b % 16 * 4 + c / 64) % 4 * 64 + c % 64 % 64 = c := by omega
    rw [e1, e2, e3]

theorem wfL_cons (v : JVal) (r : List JVal) :
    wfL (v :: r) = true ↔ wfV v = true ∧ wfL r = true := by
  simp [wfL]

theorem wfO_cons (k : List Nat) (v : JVal) (r : List (List Nat × JVal)) :
    wfO ((k, v) :: r) = true ↔
      (∀ x ∈ k, x < 256) ∧ wfV v = true ∧ wfO r = true := by
  simp [wfO, List.all_eq_true, and_assoc]

theorem wfV_jstr (s : List Nat) : wfV (.jstr s) = true ↔ ∀ x ∈ s, x < 256 := by
  simp [wfV, List.all_eq_true]

theorem wfV_jarr (xs : List JVal) : wfV (.jarr xs) = true ↔ wfL xs = true := by
  simp [wfV]

theorem wfV_jobj (xs : List (List Nat × JVal)) :
    wfV (.jobj xs) = true ↔ (xs.map Prod.fst).Nodup ∧ wfO xs = true := by
  simp [wfV]

theorem escapeJ_bounds (s : List Nat) (hs : ∀ b ∈ s, b < 256) :
    ∀ b ∈ escapeJ s, 0 < b ∧ b < 256 := by
  induction s with
  | nil => simp [escapeJ]
  | cons x r ih =>
    have hx : x < 256 := hs x (by simp)
    have hr := ih (fun b hb => hs b (by simp [hb]))
    intro b hb
    simp only [escapeJ, List.mem_append] at hb
    rcases hb with hb | hb
    · by_cases h34 : x = 34
      · simp [h34] at hb; omega
      · by_cases h92 : x = 92
        · simp [h34, h92] at hb; omega
        · by_cases hc : x < 32
          · have e1 : 0 < hexDig (x / 16) ∧ hexDig (x / 16) < 256 := by
              unfold hexDig; split <;> omega
            have e2 : 0 < hexDig (x % 16) ∧ hexDig (x % 16) < 256 := by
              unfold hexDig; split <;> omega
            simp only [h34, h92, hc, if_false, if_true, reduceIte,
              List.mem_cons, List.mem_singleton, List.not_mem_nil] at hb
            casesm* _ ∨ _
            all_goals first | omega | simp_all
          · simp [h34, h92, hc] at hb
            omega
    · exact hr b hb

theorem intDump_bounds (n : Int) : ∀ b ∈ intDump n, 0 < b ∧ b < 256 := by
  intro b hb
  simp only [intDump] at hb
  by_cases hn : n < 0
  · simp [hn] at hb
    rcases hb with h | h
    · omega
    · have := natToDec_digits (-n).toNat b h; omega
  · simp [hn] at hb
    have := natToDec_digits n.toNat b hb; omega

mutual

/-- All bytes of a well-formed value's dump are nonzero bytes. -/
theorem dumpV_bounds : ∀ v : JVal, wfV v = true → ∀ b ∈ dumpV v, 0 < b ∧ b < 256
  | .jnull, _ => by intro b hb; simp [dumpV] at hb; omega
  | .jbool bb, _ => by
    intro b hb
    cases bb <;> simp [dumpV] at hb <;> omega
  | .jint n, _ => by
    intro b hb
    exact intDump_bounds n b hb
  | .jstr s, h => by
    have hs := (wfV_jstr s).mp h
    intro b hb
    simp only [dumpV, List.mem_cons, List.mem_append, List.mem_singleton] at hb
    casesm* _ ∨ _
    all_goals first
      | omega
      | simp_all
      | (exact escapeJ_bounds s hs b (by assumption))
  | .jarr xs, h => by
    have hw := (wfV_jarr xs).mp h
    intro b hb
    simp only [dumpV, List.mem_cons, List.mem_append, List.mem_singleton] at hb
    casesm* _ ∨ _
    all_goals first
      | omega
      | simp_all
      | (exact dumpL_bounds xs hw b (by assumption))
  | .jobj xs, h => by
    have hw := ((wfV_jobj xs).mp h).2
    intro b hb
    simp only [dumpV, List.mem_cons, List.mem_append, List.mem_singleton] at hb
    casesm* _ ∨ _
    all_goals first
      | omega
      | simp_all
      | (exact dumpO_bounds xs hw b (by assumption))

/-- All bytes of well-formed dumped elements are nonzero bytes. -/
theorem dumpL_bounds : ∀ xs : List JVal, wfL xs = true →
    ∀ b ∈ dumpL xs, 0 < b ∧ b < 256
  | [], _ => by simp [dumpL]
  | [v], h => by
    have hv := ((wfL_cons v []).mp h).1
    intro b hb
    exact dumpV_bounds v hv b (by simpa [dumpL] using hb)
  | v :: y :: ys, h => by
    have hv := ((wfL_cons v (y :: ys)).mp h).1
    have hr := ((wfL_cons v (y :: ys)).mp h).2
    intro b hb
    simp only [dumpL, List.mem_append, List.mem_cons] at hb
    casesm* _ ∨ _
    all_goals first
      | omega
      | simp_all
      | (exact dumpV_bounds v hv b (by assumption))
      | (exact dumpL_bounds (y :: ys) hr b (by assumption))

/-- All bytes of well-formed dumped entries are nonzero bytes. -/
theorem dumpO_bounds : ∀ xs : List (List Nat × JVal), wfO xs = true →
    ∀ b ∈ dumpO xs, 0 < b ∧ b < 256
  | [], _ => by simp [dumpO]
  | [(k, v)], h => by
    have hk := ((wfO_cons k v []).mp h).1
    have hv := ((wfO_cons k v []).mp h).2.1
    intro b hb
    simp only [dumpO, List.mem_cons, List.mem_append, List.mem_singleton] at hb
    casesm* _ ∨ _
    all_goals first
      | omega
      | simp_all
      | (exact escapeJ_bounds k hk b (by assumption))
      | (exact dumpV_bounds v hv b (by assumption))
  | (k, v) :: q :: qs, h => by
    have hk := ((wfO_cons k v (q :: qs)).mp h).1
    have hv := ((wfO_cons k v (q :: qs)).mp h).2.1
    have hr := ((wfO_cons k v (q :: qs)).mp h).2.2
    intro b hb
    simp only [dumpO, List.mem_cons, List.mem_append, List.mem_singleton] at hb
    casesm* _ ∨ _
    all_goals first
      | omega
      | simp_all
      | (exact escapeJ_bounds k hk b (by assumption))
      | (exact dumpV_bounds v hv b (by assumption))
      | (exact dumpO_bounds (q :: qs) hr b (by assumption))

end

theorem insK_perm (p : List Nat × JVal) (l : List (List Nat × JVal)) :
    List.Perm (insK p l) (p :: l) := by
  induction l with
  | nil => simp [insK]
  | cons q r ih =>
    simp only [insK]
    split
    · exact List.Perm.refl _
    · exact (List.Perm.cons q ih).trans (List.Perm.swap p q r)

theorem sortK_perm (l : List (List Nat × JVal)) : List.Perm (sortK l) l := by
  induction l with
  | nil => simp [sortK]
  | cons p r ih =>
    exact (insK_perm p (sortK r)).trans (List.Perm.cons p ih)

theorem canonO_map_fst (xs : List (List Nat × JVal)) :
    (canonO xs).map Prod.fst = xs.map Prod.fst := by
  induction xs with
  | nil => simp [canonO]
  | cons p r ih => obtain ⟨k, v⟩ := p; simp [canonO, ih]

theorem canonO_length (xs : List (List Nat × JVal)) :
    (canonO xs).length = xs.length := by
  induction xs with
  | nil => simp [canonO]
  | cons p r ih => obtain ⟨k, v⟩ := p; simp [canonO, ih]

theorem canonO_mem (xs : List (List Nat × JVal)) (p : List Nat × JVal)
    (h : p ∈ canonO xs) : ∃ v0, (p.1, v0) ∈ xs ∧ p.2 = canon v0 := by
  induction xs with
  | nil => simp [canonO] at h
  | cons q r ih =>
    obtain ⟨k, v⟩ := q
    simp only [canonO, List.mem_cons] at h
    rcases h with h | h
    · exact ⟨v, by simp [h], by simp [h]⟩
    · obtain ⟨v0, hm, he⟩ := ih h
      exact ⟨v0, by simp [hm], he⟩

theorem canonO_mem_of (xs : List (List Nat × JVal)) (k : List Nat) (v : JVal)
    (h : (k, v) ∈ xs) : (k, canon v) ∈ canonO xs := by
  induction xs with
  | nil => simp at h
  | cons q r ih =>
    obtain ⟨k2, v2⟩ := q
    simp only [List.mem_cons] at h
    rcases h with h | h
    · simp only [Prod.mk.injEq] at h
      simp [canonO, h.1, h.2]
    · simp [canonO, ih h]

theorem lookupK_of_mem_nodup (xs : List (List Nat × JVal)) (k : List Nat) (v : JVal)
    (hnd : (xs.map Prod.fst).Nodup) (hm : (k, v) ∈ xs) :
    JVal.lookupK xs k = some v := by
  induction xs with
  | nil => simp at hm
  | cons q r ih =>
    obtain ⟨k2, v2⟩ := q
    simp only [List.mem_cons, Prod.mk.injEq] at hm
    simp only [List.map_cons, List.nodup_cons] at hnd
    rcases hm with ⟨h1, h2⟩ | hm
    · subst h1; subst h2
      simp [JVal.lookupK]
    · have hne : ¬ k2 = k := by
        intro he
        subst he
        exact hnd.1 (by simpa using List.mem_map_of_mem Prod.fst hm)
      simp [JVal.lookupK, hne, ih hnd.2 hm]

theorem lookupK_none_iff (xs : List (List Nat × JVal)) (k : List Nat) :
    JVal.lookupK xs k = none ↔ ∀ p ∈ xs, p.1 ≠ k := by
  induction xs with
  | nil => simp [JVal.lookupK]
  | cons q r ih =>
    obtain ⟨k2, v2⟩ := q
    by_cases h : k2 = k
    · subst h
      simp [JVal.lookupK]
    · simp [JVal.lookupK, h, ih]

theorem lookupK_mem (xs : List (List Nat × JVal)) (k : List Nat) (v : JVal)
    (h : JVal.lookupK xs k = some v) : (k, v) ∈ xs := by
  induction xs with
  | nil => simp [JVal.lookupK] at h
  | cons q r ih =>
    obtain ⟨k2, v2⟩ := q
    by_cases he : k2 = k
    · subst he
      simp [JVal.lookupK] at h
      simp [h]
    · simp [JVal.lookupK, he] at h
      simp [ih h]

theorem wfO_mem (xs : List (List Nat × JVal)) (k : List Nat) (v : JVal)
    (h : wfO xs = true) (hm : (k, v) ∈ xs) : wfV v = true := by
  induction xs with
  | nil => simp at hm
  | cons q r ih =>
    obtain ⟨k2, v2⟩ := q
    have hh := (wfO_cons k2 v2 r).mp h
    simp only [List.mem_cons, Prod.mk.injEq] at hm
    rcases hm with ⟨h1, h2⟩ | hm
    · subst h2; exact hh.2.1
    · exact ih hh.2.2 hm

theorem wfL_mem (xs : List JVal) (v : JVal) (h : wfL xs = true) (hm : v ∈ xs) :
    wfV v = true := by
  induction xs with
  | nil => simp at hm
  | cons q r ih =>
    have hh := (wfL_cons q r).mp h
    simp only [List.mem_cons] at hm
    rcases hm with hm | hm
    · subst hm; exact hh.1
    · exact ih hh.2 hm

theorem jeqL_of (xs : List JVal) (h : ∀ v ∈ xs, jeq (canon v) v = true) :
    jeqL (canonL xs) xs = true := by
  induction xs with
  | nil => simp [canonL, jeqL]
  | cons v r ih =>
    simp only [canonL, jeqL, Bool.and_eq_true]
    exact ⟨h v (by simp), ih (fun w hw => h w (by simp [hw]))⟩

theorem jeqO_of (a xs : List (List Nat × JVal))
    (ha : ∀ p ∈ a, ∃ v0, (p.1, v0) ∈ xs ∧ jeq p.2 v0 = true)
    (hnd : (xs.map Prod.fst).Nodup) : jeqO a xs = true := by
  induction a with
  | nil => simp [jeqO]
  | cons p r ih =>
    obtain ⟨k, v⟩ := p
    obtain ⟨v0, hm, he⟩ := ha (k, v) (by simp)
    simp only [jeqO, Bool.and_eq_true]
    constructor
    · rw [lookupK_of_mem_nodup xs k v0 hnd hm]
      exact he
    · exact ih (fun q hq => ha q (by simp [hq]))

theorem sizeOf_mem_obj (xs : List (List Nat × JVal)) (k : List Nat) (v : JVal)
    (h : (k, v) ∈ xs) : sizeOf v < sizeOf (JVal.jobj xs) := by
  have h1 := List.sizeOf_lt_of_mem h
  have h2 : sizeOf v < sizeOf (k, v) := by
    simp
  simp only [JVal.jobj.sizeOf_spec]
  omega

theorem sizeOf_mem_arr (xs : List JVal) (v : JVal) (h : v ∈ xs) :
    sizeOf v < sizeOf (JVal.jarr xs) := by
  have h1 := List.sizeOf_lt_of_mem h
  simp only [JVal.jarr.sizeOf_spec]
  omega

/-- `json_equal` accepts the canonical (key-sorted) form of a
well-formed value against the original. -/
theorem jeq_canon_sized : ∀ N : Nat, ∀ v : JVal, sizeOf v ≤ N → wfV v = true →
    jeq (canon v) v = true := by
  intro N
  induction N using Nat.strong_induction_on with
  | _ N ih =>
    intro v hsz hwf
    cases v with
    | jnull => simp [canon, jeq]
    | jbool b => simp [canon, jeq]
    | jint n => simp [canon, jeq]
    | jstr s => simp [canon, jeq]
    | jarr xs =>
      show jeqL (canonL xs) xs = true
      refine jeqL_of xs (fun v hv => ?_)
      have hlt := sizeOf_mem_arr xs v hv
      have hwv := wfL_mem xs v ((wfV_jarr xs).mp hwf) hv
      exact ih (sizeOf v) (by omega) v le_rfl hwv
    | jobj xs =>
      obtain ⟨hnd, hwo⟩ := (wfV_jobj xs).mp hwf
      show (_ && _) = true
      rw [Bool.and_eq_true]
      constructor
      · have := (sortK_perm (canonO xs)).length_eq
        simp [this, canonO_length]
      · refine jeqO_of _ xs (fun p hp => ?_) hnd
        have hp2 : p ∈ canonO xs := ((sortK_perm (canonO xs)).mem_iff).mp hp
        obtain ⟨v0, hm, he⟩ := canonO_mem xs p hp2
        refine ⟨v0, hm, ?_⟩
        rw [he]
        have hlt := sizeOf_mem_obj xs p.1 v0 hm
        have hwv := wfO_mem xs p.1 v0 hwo hm
        exact ih (sizeOf v0) (by omega) v0 le_rfl hwv

/-- `lookupK` through the canonical form. -/
theorem lookupK_canonObj (xs : List (List Nat × JVal)) (k : List Nat)
    (hnd : (xs.map Prod.fst).Nodup) :
    JVal.lookupK (sortK (canonO xs)) k = (JVal.lookupK xs k).map canon := by
  have hnd2 : ((sortK (canonO xs)).map Prod.fst).Nodup := by
    have hperm := (sortK_perm (canonO xs)).map Prod.fst
    rw [canonO_map_fst] at hperm
    exact (List.Perm.nodup_iff hperm).mpr hnd
  cases h : JVal.lookupK xs k with
  | none =>
    rw [(lookupK_none_iff _ _).mpr]
    · rfl
    · intro p hp
      have hp2 : p ∈ canonO xs := ((sortK_perm (canonO xs)).mem_iff).mp hp
      obtain ⟨v0, hm, -⟩ := canonO_mem xs p hp2
      intro he
      subst he
      rw [lookupK_of_mem_nodup xs p.1 v0 hnd hm] at h
      simp at h
  | some v0 =>
    have hm := lookupK_mem xs k v0 h
    have hm2 : (k, canon v0) ∈ sortK (canonO xs) :=
      ((sortK_perm (canonO xs)).mem_iff).mpr (canonO_mem_of xs k v0 hm)
    rw [lookupK_of_mem_nodup _ k (canon v0) hnd2 hm2]
    rfl

theorem wfO_iff_mem (xs : List (List Nat × JVal)) :
    wfO xs = true ↔ ∀ p ∈ xs, (∀ x ∈ p.1, x < 256) ∧ wfV p.2 = true := by
  induction xs with
  | nil => simp [wfO]
  | cons q r ih =>
    obtain ⟨k, v⟩ := q
    rw [wfO_cons, ih]
    constructor
    · rintro ⟨h1, h2, h3⟩ p hp
      rcases List.mem_cons.mp hp with hp | hp
      · subst hp; exact ⟨h1, h2⟩
      · exact h3 p hp
    · intro h
      exact ⟨(h (k, v) (by simp)).1, (h (k, v) (by simp)).2,
        fun p hp => h p (by simp [hp])⟩

theorem wfL_iff_mem (xs : List JVal) :
    wfL xs = true ↔ ∀ v ∈ xs, wfV v = true := by
  induction xs with
  | nil => simp [wfL]
  | cons q r ih =>
    rw [wfL_cons, ih]
    constructor
    · rintro ⟨h1, h2⟩ v hv
      rcases List.mem_cons.mp hv with hv | hv
      · subst hv; exact h1
      · exact h2 v hv
    · intro h
      exact ⟨h q (by simp), fun v hv => h v (by simp [hv])⟩

/-- `canon` preserves well-formedness. -/
theorem wfV_canon_sized : ∀ N : Nat, ∀ v : JVal, sizeOf v ≤ N → wfV v = true →
    wfV (canon v) = true := by
  intro N
  induction N using Nat.strong_induction_on with
  | _ N ih =>
    intro v hsz hwf
    cases v with
    | jnull => exact hwf
    | jbool b => exact hwf
    | jint n => exact hwf
    | jstr s => exact hwf
    | jarr xs =>
      rw [show canon (.jarr xs) = .jarr (canonL xs) from rfl, wfV_jarr,
        wfL_iff_mem]
      intro v hv
      have : ∃ v0 ∈ xs, v = canon v0 := by
        clear hwf hsz
        induction xs with
        | nil => simp [canonL] at hv
        | cons q r ih2 =>
          simp only [canonL, List.mem_cons] at hv
          rcases hv with hv | hv
          · exact ⟨q, by simp, hv⟩
          · obtain ⟨v0, hm, he⟩ := ih2 hv
            exact ⟨v0, by simp [hm], he⟩
      obtain ⟨v0, hm, he⟩ := this
      subst he
      have hlt := sizeOf_mem_arr xs v0 hm
      exact ih (sizeOf v0) (by omega) v0 le_rfl
        (wfL_mem xs v0 ((wfV_jarr xs).mp hwf) hm)
    | jobj xs =>
      obtain ⟨hnd, hwo⟩ := (wfV_jobj xs).mp hwf
      rw [show canon (.jobj xs) = .jobj (sortK (canonO xs)) from rfl, wfV_jobj]
      constructor
      · have hperm := (sortK_perm (canonO xs)).map Prod.fst
        rw [canonO_map_fst] at hperm
        exact (List.Perm.nodup_iff hperm).mpr hnd
      · rw [wfO_iff_mem]
        intro p hp
        have hp2 : p ∈ canonO xs := ((sortK_perm (canonO xs)).mem_iff).mp hp
        obtain ⟨v0, hm, he⟩ := canonO_mem xs p hp2
        have hq := (wfO_iff_mem xs).mp hwo (p.1, v0) hm
        refine ⟨hq.1, ?_⟩
        rw [he]
        have hlt := sizeOf_mem_obj xs p.1 v0 hm
        exact ih (sizeOf v0) (by omega) v0 le_rfl hq.2

theorem jsetL_fst_mem (xs : List (List Nat × JVal)) (k : List Nat) (v : JVal) :
    ∀ x ∈ (JVal.jsetL xs k v).map Prod.fst, x = k ∨ x ∈ xs.map Prod.fst := by
  induction xs with
  | nil => simp [JVal.jsetL]
  | cons q r ih =>
    obtain ⟨k2, v2⟩ := q
    by_cases h : k2 = k
    · subst h
      rw [show JVal.jsetL ((k2, v2) :: r) k2 v = (k2, v) :: r from by
        simp [JVal.jsetL]]
      intro x hx
      simpa using hx
    · simp only [JVal.jsetL, h, if_false, reduceIte, List.map_cons, List.mem_cons]
      intro x hx
      rcases hx with hx | hx
      · simp [hx]
      · rcases ih x hx with hx | hx
        · simp [hx]
        · simp [hx]

theorem jsetL_nodup (xs : List (List Nat × JVal)) (k : List Nat) (v : JVal)
    (hnd : (xs.map Prod.fst).Nodup) :
    ((JVal.jsetL xs k v).map Prod.fst).Nodup := by
  induction xs with
  | nil => simp [JVal.jsetL]
  | cons q r ih =>
    obtain ⟨k2, v2⟩ := q
    simp only [List.map_cons, List.nodup_cons] at hnd
    by_cases h : k2 = k
    · subst h
      rw [show JVal.jsetL ((k2, v2) :: r) k2 v = (k2, v) :: r from by
        simp [JVal.jsetL]]
      simpa using hnd
    · simp only [JVal.jsetL, h, if_false, reduceIte, List.map_cons, List.nodup_cons]
      constructor
      · intro hmem
        rcases jsetL_fst_mem r k v k2 hmem with he | he
        · exact h he
        · exact hnd.1 he
      · exact ih hnd.2

theorem jsetL_wfO (xs : List (List Nat × JVal)) (k : List Nat) (v : JVal)
    (hw : wfO xs = true) (hk : ∀ x ∈ k, x < 256) (hv : wfV v = true) :
    wfO (JVal.jsetL xs k v) = true := by
  induction xs with
  | nil =>
    rw [show JVal.jsetL [] k v = [(k, v)] from rfl]
    exact (wfO_cons k v []).mpr ⟨hk, hv, by simp [wfO]⟩
  | cons q r ih =>
    obtain ⟨k2, v2⟩ := q
    have hh := (wfO_cons k2 v2 r).mp hw
    by_cases h : k2 = k
    · subst h
      rw [show JVal.jsetL ((k2, v2) :: r) k2 v = (k2, v) :: r from by
        simp [JVal.jsetL]]
      exact (wfO_cons k2 v r).mpr ⟨hh.1, hv, hh.2.2⟩
    · simp only [JVal.jsetL, h, if_false, reduceIte]
      exact (wfO_cons k2 v2 _).mpr ⟨hh.1, hh.2.1, ih hh.2.2⟩

theorem jdelL_fst_mem (xs : List (List Nat × JVal)) (k : List Nat) :
    ∀ x ∈ (JVal.jdelL xs k).map Prod.fst, x ∈ xs.map Prod.fst := by
  induction xs with
  | nil => simp [JVal.jdelL]
  | cons q r ih =>
    obtain ⟨k2, v2⟩ := q
    by_cases h : k2 = k
    · subst h
      simp only [JVal.jdelL, if_pos rfl]
      intro x hx
      simp [ih x hx]
    · simp only [JVal.jdelL, h, if_false, reduceIte, List.map_cons, List.mem_cons]
      intro x hx
      rcases hx with hx | hx
      · simp [hx]
      · simp [ih x hx]

theorem jdelL_nodup (xs : List (List Nat × JVal)) (k : List Nat)
    (hnd : (xs.map Prod.fst).Nodup) :
    ((JVal.jdelL xs k).map Prod.fst).Nodup := by
  induction xs with
  | nil => simp [JVal.jdelL]
  | cons q r ih =>
    obtain ⟨k2, v2⟩ := q
    simp only [List.map_cons, List.nodup_cons] at hnd
    by_cases h : k2 = k
    · subst h
      simp only [JVal.jdelL, if_pos rfl]
      exact ih hnd.2
    · simp only [JVal.jdelL, h, if_false, reduceIte, List.map_cons, List.nodup_cons]
      exact ⟨fun hm => hnd.1 (jdelL_fst_mem r k k2 hm), ih hnd.2⟩

theorem jdelL_wfO (xs : List (List Nat × JVal)) (k : List Nat)
    (hw : wfO xs = true) : wfO (JVal.jdelL xs k) = true := by
  induction xs with
  | nil => simp [JVal.jdelL, wfO]
  | cons q r ih =>
    obtain ⟨k2, v2⟩ := q
    have hh := (wfO_cons k2 v2 r).mp hw
    by_cases h : k2 = k
    · subst h
      simp only [JVal.jdelL, if_pos rfl]
      exact ih hh.2.2
    · simp only [JVal.jdelL, h, if_false, reduceIte]
      exact (wfO_cons k2 v2 _).mpr ⟨hh.1, hh.2.1, ih hh.2.2⟩

theorem takeWhile_all_id {p : Nat → Bool} (l : List Nat)
    (h : ∀ b ∈ l, p b = true) : l.takeWhile p = l := by
  induction l with
  | nil => simp
  | cons b r ih =>
    simp [List.takeWhile, h b (by simp), ih (fun x hx => h x (by simp [hx]))]

theorem b64char_tr_ne46 : ∀ n, n < 64 →
    (if b64char n = 43 then 45 else if b64char n = 47 then 95 else b64char n)
      ≠ 46 := by decide

/-- The base64url encoding of bytes contains no dot. -/
theorem uriEnc_b64enc_ne46 (X : List Nat) (hX : ∀ b ∈ X, b < 256) :
    ∀ c ∈ uriEnc (b64enc X), c ≠ 46 := by
  induction X using b64enc.induct with
  | case1 => simp [b64enc, uriEnc]
  | case2 a =>
    have ha : a < 256 := hX a (by simp)
    have h1 : a / 4 < 64 := by omega
    have h2 : a % 4 * 16 < 64 := by omega
    rw [show b64enc [a] = b64char (a / 4) :: b64char (a % 4 * 16) :: 61 :: 61 :: []
        from rfl]
    rw [uriEnc_cons_ne _ _ (b64char_ne61 _ h1), uriEnc_cons_ne _ _ (b64char_ne61 _ h2)]
    rw [show uriEnc (61 :: 61 :: []) = [] from rfl]
    intro c hc
    rcases List.mem_cons.mp hc with hc | hc
    · subst hc; exact b64char_tr_ne46 _ h1
    rcases List.mem_cons.mp hc with hc | hc
    · subst hc; exact b64char_tr_ne46 _ h2
    · simp at hc
  | case3 a b =>
    have ha : a < 256 := hX a (by simp)
    have hb : b < 256 := hX b (by simp)
    have h1 : a / 4 < 64 := by omega
    have h2 : a % 4 * 16 + b / 16 < 64 := by omega
    have h3 : b % 16 * 4 < 64 := by omega
    rw [show b64enc [a, b] = b64char (a / 4) :: b64char (a % 4 * 16 + b / 16) ::
        b64char (b % 16 * 4) :: 61 :: [] from rfl]
    rw [uriEnc_cons_ne _ _ (b64char_ne61 _ h1), uriEnc_cons_ne _ _ (b64char_ne61 _ h2),
        uriEnc_cons_ne _ _ (b64char_ne61 _ h3)]
    rw [show uriEnc (61 :: []) = [] from rfl]
    intro c hc
    rcases List.mem_cons.mp hc with hc | hc
    · subst hc; exact b64char_tr_ne46 _ h1
    rcases List.mem_cons.mp hc with hc | hc
    · subst hc; exact b64char_tr_ne46 _ h2
    rcases List.mem_cons.mp hc with hc | hc
    · subst hc; exact b64char_tr_ne46 _ h3
    · simp at hc
  | case4 a b c r ih =>
    have ha : a < 256 := hX a (by simp)
    have hb : b < 256 := hX b (by simp)
    have hc : c < 256 := hX c (by simp)
    have hr : ∀ x ∈ r, x < 256 := fun x hx => hX x (by simp [hx])
    have h1 : a / 4 < 64 := by omega
    have h2 : a % 4 * 16 + b / 16 < 64 := by omega
    have h3 : b % 16 * 4 + c / 64 < 64 := by omega
    have h4 : c % 64 < 64 := by omega
    rw [show b64enc (a :: b :: c :: r) = b64char (a / 4) ::
        b64char (a % 4 * 16 + b / 16) :: b64char (b % 16 * 4 + c / 64) ::
        b64char (c % 64) :: b64enc r from rfl]
    rw [uriEnc_cons_ne _ _ (b64char_ne61 _ h1), uriEnc_cons_ne _ _ (b64char_ne61 _ h2),
        uriEnc_cons_ne _ _ (b64char_ne61 _ h3), uriEnc_cons_ne _ _ (b64char_ne61 _ h4)]
    intro x hx
    rcases List.mem_cons.mp hx with hx | hx
    · subst hx; exact b64char_tr_ne46 _ h1
    rcases List.mem_cons.mp hx with hx | hx
    · subst hx; exact b64char_tr_ne46 _ h2
    rcases List.mem_cons.mp hx with hx | hx
    · subst hx; exact b64char_tr_ne46 _ h3
    rcases List.mem_cons.mp hx with hx | hx
    · subst hx; exact b64char_tr_ne46 _ h4
    · exact ih hr x hx

/-- Decode-and-parse of a base64url-encoded sorted compact dump of a
well-formed object recovers the canonical form of the object. -/
theorem jwt_parse_seg_dump (xs : List (List Nat × JVal))
    (hw : wfV (.jobj xs) = true) :
    jwt_parse_seg (uriEnc (b64enc (jsonDumps (.jobj xs)))) =
      some (canon (.jobj xs)) := by
  have hwc : wfV (canon (.jobj xs)) = true := wfV_canon_sized _ _ le_rfl hw
  have hbound : ∀ b ∈ jsonDumps (.jobj xs), b < 256 :=
    fun b hb => (dumpV_bounds _ hwc b hb).2
  have hpos : ∀ b ∈ jsonDumps (.jobj xs), 0 < b :=
    fun b hb => (dumpV_bounds _ hwc b hb).1
  show jwt_b64_decode_json _ = _
  unfold jwt_b64_decode_json
  rw [b64_rt _ hbound]
  rw [takeWhile_all_id _ (fun b hb => by
    have := hpos b hb
    simp
    omega)]
  exact jsonLoads_jsonDumps_obj xs

theorem jsonDumps_obj_bounds (xs : List (List Nat × JVal))
    (hw : wfV (.jobj xs) = true) : ∀ b ∈ jsonDumps (.jobj xs), b < 256 :=
  fun b hb => (dumpV_bounds _ (wfV_canon_sized _ _ le_rfl hw) b hb).2

theorem uriEnc_b64enc_count46 (xs : List (List Nat × JVal))
    (hw : wfV (.jobj xs) = true) :
    (uriEnc (b64enc (jsonDumps (.jobj xs)))).count 46 = 0 := by
  rw [List.count_eq_zero]
  intro hmem
  exact uriEnc_b64enc_ne46 _ (jsonDumps_obj_bounds xs hw) 46 hmem rfl

/-- C7 (round trip at `NONE`): encoding a well-formed token with
algorithm `NONE` and decoding the result with no key succeeds, and the
decoded token's headers and grants are JSON-structurally equal
(`json_equal`) to the encoded token's (the headers as mutated by the
canonical-header injection of encode). -/
theorem jwt_decode_encode_none (t : Jwt) (sg : SignFn) (vf : VerifyFn)
    (xs gs : List (List Nat × JVal))
    (halg : t.alg = .NONE) (hx : t.headers = .jobj xs) (hg : t.grants = .jobj gs)
    (hwh : wfV t.headers = true) (hwg : wfV t.grants = true) :
    ∃ out t', (jwt_encode sg t).1 = some out ∧
      jwt_decode vf out [] = (.ok, some t') ∧
      t'.alg = .NONE ∧
      jeq t'.headers (jwt_write_head t).2.headers = true ∧
      jeq t'.grants t.grants = true := by
  have hA : t.alg ≠ .INVAL := by rw [halg]; decide
  -- the canonical headers installed by jwt_write_head
  have hwh1 : jwt_write_head t =
      (.ok, { t with headers := .jobj (JVal.jsetL (JVal.jdelL xs (ascii "alg"))
        (ascii "alg") (.jstr (ascii "none"))) }) := by
    rw [jwt_write_head_eq t xs hx hA, halg]
    simp [jwt_alg_str]
  rw [hx] at hwh
  obtain ⟨hnd, hwo⟩ := (wfV_jobj xs).mp hwh
  have hndH : ((JVal.jsetL (JVal.jdelL xs (ascii "alg")) (ascii "alg")
      (.jstr (ascii "none"))).map Prod.fst).Nodup :=
    jsetL_nodup _ _ _ (jdelL_nodup _ _ hnd)
  have hwoH : wfO (JVal.jsetL (JVal.jdelL xs (ascii "alg")) (ascii "alg")
      (.jstr (ascii "none"))) = true :=
    jsetL_wfO _ _ _ (jdelL_wfO _ _ hwo) (by decide) (by decide)
  have hwH : wfV (.jobj (JVal.jsetL (JVal.jdelL xs (ascii "alg")) (ascii "alg")
      (.jstr (ascii "none")))) = true := (wfV_jobj _).mpr ⟨hndH, hwoH⟩
  rw [hg] at hwg
  -- the two encoded segments
  have henc : (jwt_encode sg t).1 =
      some ((uriEnc (b64enc (jsonDumps (.jobj (JVal.jsetL (JVal.jdelL xs (ascii "alg"))
        (ascii "alg") (.jstr (ascii "none")))))) ++ 46 ::
        uriEnc (b64enc (jsonDumps (.jobj gs)))) ++ [46]) := by
    unfold jwt_encode
    rw [hwh1]
    simp [halg, hg]
  have hs1 : splitDot (uriEnc (b64enc (jsonDumps (.jobj (JVal.jsetL
      (JVal.jdelL xs (ascii "alg")) (ascii "alg") (.jstr (ascii "none")))))) ++ 46 ::
      (uriEnc (b64enc (jsonDumps (.jobj gs))) ++ [46])) =
      some (uriEnc (b64enc (jsonDumps (.jobj (JVal.jsetL (JVal.jdelL xs (ascii "alg"))
        (ascii "alg") (.jstr (ascii "none")))))),
        uriEnc (b64enc (jsonDumps (.jobj gs))) ++ [46]) :=
    splitDot_append _ _ (uriEnc_b64enc_count46 _ hwH)
  have hs2 : splitDot (uriEnc (b64enc (jsonDumps (.jobj gs))) ++ 46 :: []) =
      some (uriEnc (b64enc (jsonDumps (.jobj gs))), []) :=
    splitDot_append _ [] (uriEnc_b64enc_count46 _ hwg)
  have hsplit : jwt_split ((uriEnc (b64enc (jsonDumps (.jobj (JVal.jsetL
      (JVal.jdelL xs (ascii "alg")) (ascii "alg") (.jstr (ascii "none")))))) ++ 46 ::
      uriEnc (b64enc (jsonDumps (.jobj gs)))) ++ [46]) =
      some (uriEnc (b64enc (jsonDumps (.jobj (JVal.jsetL (JVal.jdelL xs (ascii "alg"))
        (ascii "alg") (.jstr (ascii "none")))))),
        uriEnc (b64enc (jsonDumps (.jobj gs))), []) := by
    rw [show (uriEnc (b64enc (jsonDumps (.jobj (JVal.jsetL (JVal.jdelL xs (ascii "alg"))
      (ascii "alg") (.jstr (ascii "none")))))) ++ 46 ::
      uriEnc (b64enc (jsonDumps (.jobj gs)))) ++ [46] =
      uriEnc (b64enc (jsonDumps (.jobj (JVal.jsetL (JVal.jdelL xs (ascii "alg"))
        (ascii "alg") (.jstr (ascii "none")))))) ++ 46 ::
      (uriEnc (b64enc (jsonDumps (.jobj gs))) ++ [46]) from by simp]
    simp only [jwt_split, hs1, hs2]
  have hph := jwt_parse_seg_dump _ hwH
  have hpb := jwt_parse_seg_dump _ hwg
  have hlook : JVal.lookupK (sortK (canonO (JVal.jsetL (JVal.jdelL xs (ascii "alg"))
      (ascii "alg") (.jstr (ascii "none"))))) (ascii "alg") =
      some (.jstr (ascii "none")) := by
    rw [lookupK_canonObj _ _ hndH, JVal.lookupK_jsetL]
    simp [canon]
  have halgv : jwt_str_alg (get_js_string (canon (.jobj (JVal.jsetL
      (JVal.jdelL xs (ascii "alg")) (ascii "alg") (.jstr (ascii "none")))))
      (ascii "alg")).1 = .NONE := by
    simp only [canon, get_js_string, json_object_get, hlook, json_string_value]
    decide
  have hvh : jwt_verify_head jwt_new (uriEnc (b64enc (jsonDumps (.jobj
      (JVal.jsetL (JVal.jdelL xs (ascii "alg")) (ascii "alg")
        (.jstr (ascii "none"))))))) =
      (.ok, { alg := .NONE, key := none, key_len := 0,
              headers := canon (.jobj (JVal.jsetL (JVal.jdelL xs (ascii "alg"))
                (ascii "alg") (.jstr (ascii "none")))),
              grants := .jobj [] }) := by
    simp only [jwt_verify_head, hph, halgv]
    simp [jwt_new]
  refine ⟨_, Jwt.mk .NONE none 0
      (canon (.jobj (JVal.jsetL (JVal.jdelL xs (ascii "alg"))
        (ascii "alg") (.jstr (ascii "none")))))
      (canon (.jobj gs)), henc, ?_, rfl, ?_, ?_⟩
  · rw [jwt_decode, hsplit]
    simp only [List.length_nil, ne_eq, not_true_eq_false, if_false, reduceIte,
      hvh, hpb]
  · rw [hwh1]
    exact jeq_canon_sized _ _ le_rfl hwH
  · rw [hg]
    exact jeq_canon_sized _ _ le_rfl hwg

/-- A sign oracle (unused on the `NONE` path). -/
def sgRtW : SignFn := fun _ _ _ _ => some []

/-- A verify oracle rejecting everything (never consulted at `NONE`). -/
def vfRtW : VerifyFn := fun _ _ _ _ _ => false

/-- The token of the C7 witness. -/
def tRtW : Jwt :=
  { alg := .NONE, key := none, key_len := 0, headers := .jobj [],
    grants := .jobj [(ascii "sub", .jstr (ascii "x"))] }

/-- C7 witness: the round-trip theorem instantiated at a concrete
`NONE` token with one grant. -/
theorem jwt_decode_encode_none_witness :
    tRtW.alg = .NONE ∧ wfV tRtW.headers = true ∧ wfV tRtW.grants = true ∧
    ∃ out t', (jwt_encode sgRtW tRtW).1 = some out ∧
      jwt_decode vfRtW out [] = (.ok, some t') ∧
      t'.alg = .NONE ∧
      jeq t'.headers (jwt_write_head tRtW).2.headers = true ∧
      jeq t'.grants tRtW.grants = true :=
  ⟨rfl, by decide, by decide,
    jwt_decode_encode_none tRtW sgRtW vfRtW [] [(ascii "sub", .jstr (ascii "x"))]
      rfl rfl rfl (by decide) (by decide)⟩
